import Mathlib

/-!
# Verification of `src/authenticate.py` (partiful_authenticator)

Shallow embedding of the single source file `src/authenticate.py`.
Strings are modelled as `List Char`; Python `dict`s (which preserve
insertion order) as association lists; Python `set`s as lists used only
through membership; Python `float` amounts as `ℚ` (the spec calls payment
amounts non-negative real numbers; none of the verified properties depend
on binary floating-point rounding).  Whitespace and case operations use
the ASCII behaviour, which is what the program's inputs exercise.
-/

namespace Authenticate

/-- `[A-Za-z]` from the regexes in `parse_payments` (src lines 30, 42). -/
def isAlphaCh (c : Char) : Bool :=
  ('A' ≤ c && c ≤ 'Z') || ('a' ≤ c && c ≤ 'z')

/-- `\s` in the regexes / the whitespace stripped by Python `str.strip()`
(ASCII: space, tab, newline, carriage return, vertical tab, form feed). -/
def isSpaceCh (c : Char) : Bool :=
  c = ' ' || c = '\t' || c = '\n' || c = '\r' || c = '\x0b' || c = '\x0c'

/-- `\d` in the amount part of the regexes. -/
def isDigitCh (c : Char) : Bool :=
  '0' ≤ c && c ≤ '9'

/-- ASCII `str.lower()` on one character. -/
def lowerChar (c : Char) : Char :=
  if 'A' ≤ c && c ≤ 'Z' then Char.ofNat (c.toNat + 32) else c

/-- ASCII upper-casing of one character (used by `str.title()`). -/
def upperChar (c : Char) : Char :=
  if 'a' ≤ c && c ≤ 'z' then Char.ofNat (c.toNat - 32) else c

/-- Python `str.strip()`: drop leading and trailing whitespace. -/
def pyStrip (s : List Char) : List Char :=
  ((s.dropWhile isSpaceCh).reverse.dropWhile isSpaceCh).reverse

/-- `normalize_name` (src line 5): `name.strip().lower()`. -/
def normalize_name (s : List Char) : List Char :=
  (pyStrip s).map lowerChar

/-- Helper for Python `str.title()`: the `Bool` records whether the
previous character was alphabetic. -/
def titleAux : Bool → List Char → List Char
  | _, [] => []
  | prev, c :: rest =>
    (if isAlphaCh c then (if prev then lowerChar c else upperChar c) else c)
      :: titleAux (isAlphaCh c) rest

/-- Python `str.title()` (src line 115), ASCII behaviour. -/
def pyTitle (s : List Char) : List Char := titleAux false s

/-- Accumulator version of Python `str.split()` (split on whitespace runs,
dropping empty pieces). -/
def splitWSAux : List Char → List Char → List (List Char)
  | acc, [] => if acc.isEmpty then [] else [acc.reverse]
  | acc, c :: rest =>
    if isSpaceCh c then
      if acc.isEmpty then splitWSAux [] rest else acc.reverse :: splitWSAux [] rest
    else splitWSAux (c :: acc) rest

/-- Python `str.split()` with no argument. -/
def splitWS (s : List Char) : List (List Char) := splitWSAux [] s

/-- `s.split()[0] if s.split() else s` (src lines 125-126 and 170-172). -/
def firstWord (s : List Char) : List Char :=
  match splitWS s with
  | [] => s
  | w :: _ => w

/-- Python substring containment `a in b` on strings. -/
def isSub (a : List Char) : List Char → Bool
  | [] => a.isEmpty
  | c :: bs => a.isPrefixOf (c :: bs) || isSub a bs

/-- The fuzzy-match predicate of `main` (src lines 128-132, and identically
at src lines 174-178): `a in b or b in a or firstWord a == firstWord b or
firstWord a in b or firstWord b in a`, where Python `x in y` on strings is
substring containment. -/
def matchesPred (a b : List Char) : Bool :=
  isSub a b || isSub b a || firstWord a == firstWord b
    || isSub (firstWord a) b || isSub (firstWord b) a

/-! ## The payment-line parser (`parse_payments`, src lines 9-53)

The two regexes are translated as an explicit leftmost-start, lazy-name
backtracking matcher.  A name is `[A-Za-z][A-Za-z\s\']+?`; the lazy `+?`
is realised by `nameLoop`, which extends the name one character at a time
and tries the (deterministic) tail `\s+<kw>\s+you\s+\$(\d+\.?\d*)` after
each extension.  `re.search` tries each start position from the left. -/

/-- A character allowed in the name group: `[A-Za-z\s\']`. -/
def nameCh (c : Char) : Bool :=
  isAlphaCh c || isSpaceCh c || c = '\''

/-- `\s+` followed by maximal munch (the next pattern element is never a
whitespace character, so greedy matching needs no backtracking). -/
def takeSpaces1 : List Char → Option (List Char)
  | [] => none
  | c :: rest => if isSpaceCh c then some (rest.dropWhile isSpaceCh) else none

/-- Case-insensitive literal: `expectCI pat s` consumes `pat` (given in
lowercase) from the front of `s`. -/
def expectCI : List Char → List Char → Option (List Char)
  | [], s => some s
  | _ :: _, [] => none
  | p :: ps, c :: cs => if lowerChar c = p then expectCI ps cs else none

/-- The amount group `(\d+\.?\d*)` (greedy), returning the captured text. -/
def takeAmount (s : List Char) : Option (List Char) :=
  let d1 := s.takeWhile isDigitCh
  if d1.isEmpty then none
  else
    match s.dropWhile isDigitCh with
    | '.' :: s2 => some (d1 ++ '.' :: s2.takeWhile isDigitCh)
    | _ => some d1

def paidLit : List Char := ['p', 'a', 'i', 'd']
def sentLit : List Char := ['s', 'e', 'n', 't']
def youLit : List Char := ['y', 'o', 'u']
def bofaLit : List Char := ['b', 'o', 'f', 'a', ':']

/-- The part of the pattern after the name: `\s+<kw>\s+you\s+\$(\d+\.?\d*)`
(case-insensitive); returns the captured amount text. -/
def matchTail (kw : List Char) (s : List Char) : Option (List Char) :=
  (takeSpaces1 s).bind fun s1 =>
  (expectCI kw s1).bind fun s2 =>
  (takeSpaces1 s2).bind fun s3 =>
  (expectCI youLit s3).bind fun s4 =>
  (takeSpaces1 s4).bind fun s5 =>
  match s5 with
  | '$' :: s6 => takeAmount s6
  | _ => none

/-- Lazy `[A-Za-z\s\']+?`: extend the name by one class character, try the
tail, and only on failure extend further.  Returns (captured name, captured
amount). -/
def nameLoop (kw : List Char) (acc : List Char) : List Char → Option (List Char × List Char)
  | [] => none
  | c :: rest =>
    if nameCh c then
      match matchTail kw rest with
      | some amt => some (acc ++ [c], amt)
      | none => nameLoop kw (acc ++ [c]) rest
    else none

/-- Start the name group at the current position: `[A-Za-z]` then the lazy
remainder. -/
def nameStart (kw : List Char) : List Char → Option (List Char × List Char)
  | [] => none
  | c :: rest => if isAlphaCh c then nameLoop kw [c] rest else none

/-- `re.search` for the `paid` pattern (src line 30): try every start
position from the left. -/
def searchPaid : List Char → Option (List Char × List Char)
  | [] => none
  | c :: rest =>
    match nameStart paidLit (c :: rest) with
    | some r => some r
    | none => searchPaid rest

/-- The `sent` pattern at one position: the optional greedy `(?:BofA:\s+)?`
is tried first, falling back to the bare name at the same position. -/
def sentAt (s : List Char) : Option (List Char × List Char) :=
  match expectCI bofaLit s with
  | some s1 =>
    match takeSpaces1 s1 with
    | some s2 =>
      match nameStart sentLit s2 with
      | some r => some r
      | none => nameStart sentLit s
    | none => nameStart sentLit s
  | none => nameStart sentLit s

/-- `re.search` for the `sent` pattern (src line 42). -/
def searchSent : List Char → Option (List Char × List Char)
  | [] => none
  | c :: rest =>
    match sentAt (c :: rest) with
    | some r => some r
    | none => searchSent rest

/-- `pat` (lowercase) occurs in `s.lower()` — Python `pat in line.lower()`. -/
def containsCI (pat s : List Char) : Bool :=
  isSub pat (s.map lowerChar)

/-- Python `line.endswith(':')`. -/
def endsColon (s : List Char) : Bool :=
  s.getLast? == some ':'

/-- Numeric value of a digit string. -/
def digitsVal (s : List Char) : ℕ :=
  s.foldl (fun n c => 10 * n + (c.toNat - 48)) 0

/-- `float(...)` of a string of shape `\d+\.?\d*`, as an exact rational. -/
def parseAmount (s : List Char) : ℚ :=
  let ip := s.takeWhile isDigitCh
  match s.dropWhile isDigitCh with
  | '.' :: fr =>
    (digitsVal ip : ℚ) +
      (digitsVal (fr.takeWhile isDigitCh) : ℚ) / ((10 : ℚ) ^ (fr.takeWhile isDigitCh).length)
  | _ => (digitsVal ip : ℚ)

/-- Python dict update `payments[k] += a` / `payments[k] = a`
(src lines 35-38 and 47-50): update in place when present (insertion order
preserved), otherwise append a fresh entry. -/
def ledgerAdd (led : List (List Char × ℚ)) (k : List Char) (a : ℚ) : List (List Char × ℚ) :=
  if (led.lookup k).isSome then
    led.map (fun e => if e.1 = k then (e.1, e.2 + a) else e)
  else led ++ [(k, a)]

/-- The body of the per-line loop of `parse_payments` (src lines 19-51).
`group(1).strip()` followed by `normalize_name` equals `normalize_name` of
the raw capture, since `strip` is idempotent. -/
def processLine (led : List (List Char × ℚ)) (raw : List Char) : List (List Char × ℚ) :=
  let line := pyStrip raw
  if line.isEmpty then led
  else if endsColon line && !containsCI paidLit line && !containsCI sentLit line then led
  else
    match searchPaid line with
    | some na => ledgerAdd led (normalize_name na.1) (parseAmount na.2)
    | none =>
      match searchSent line with
      | some na => ledgerAdd led (normalize_name na.1) (parseAmount na.2)
      | none => led

/-- `parse_payments` (src lines 9-53) on the list of raw lines. -/
def parse_payments (lines : List (List Char)) : List (List Char × ℚ) :=
  lines.foldl processLine []

/-! ## The guest-structure builder (`main`, src lines 55-101) -/

/-- One row of the guest CSV: the three columns used by `main`. -/
structure GuestRow where
  name : List Char
  status : List Char
  plusOneOf : List Char
deriving DecidableEq

/-- Python dict assignment `d[k] = v`: replace in place when the key is
present, otherwise append. -/
def dictSet (d : List (List Char × List Char)) (k v : List Char) :
    List (List Char × List Char) :=
  if (d.lookup k).isSome then d.map (fun e => if e.1 = k then (k, v) else e)
  else d ++ [(k, v)]

/-- `defaultdict(list)` append `gs[k].append(n)` (src line 94). -/
def groupAppend (gs : List (List Char × List (List Char))) (k n : List Char) :
    List (List Char × List (List Char)) :=
  if (gs.lookup k).isSome then gs.map (fun e => if e.1 = k then (e.1, e.2 ++ [n]) else e)
  else gs ++ [(k, [n])]

/-- `if k not in gs: gs[k] = []` (src lines 100-101). -/
def groupEnsure (gs : List (List Char × List (List Char))) (k : List Char) :
    List (List Char × List (List Char)) :=
  if (gs.lookup k).isSome then gs else gs ++ [(k, [])]

def goingLit : List Char := ['G', 'o', 'i', 'n', 'g']

/-- State accumulated by the CSV loop of `main` (src lines 64-101). -/
structure BuildSt where
  blacklist : List (List Char)
  guestStructure : List (List Char × List (List Char))
  mains : List (List Char × List Char)
  alls : List (List Char × List Char)
deriving DecidableEq

/-- The body of the CSV row loop (src lines 74-101). -/
def buildStep (wl : List (List Char)) (st : BuildSt) (row : GuestRow) : BuildSt :=
  let name := pyStrip row.name
  let status := pyStrip row.status
  let poo := pyStrip row.plusOneOf
  if status ≠ goingLit then st
  else
    let nn := normalize_name name
    let alls := dictSet st.alls nn name
    let blacklist := if wl.contains nn then st.blacklist else st.blacklist ++ [name]
    if !poo.isEmpty then
      ⟨blacklist, groupAppend st.guestStructure (normalize_name poo) name, st.mains, alls⟩
    else
      ⟨blacklist, groupEnsure st.guestStructure nn, dictSet st.mains nn name, alls⟩

/-- The whole CSV pass of `main`. -/
def buildGuests (wl : List (List Char)) (rows : List GuestRow) : BuildSt :=
  rows.foldl (buildStep wl) ⟨[], [], [], []⟩

/-- Loading `whitelist.txt` / `no_pay.txt` (src lines 57-62): keep non-blank
lines, normalized.  The Python `set` is modelled as a list used only through
membership. -/
def loadNames (lines : List (List Char)) : List (List Char) :=
  (lines.filter (fun l => !(pyStrip l).isEmpty)).map normalize_name

/-! ## The reconciliation engine (`main`, src lines 106-158) -/

/-- `main_guests.get(k, all_guests.get(k, k.title()))` (src line 115). -/
def resolveDisplay (mains alls : List (List Char × List Char)) (k : List Char) :
    List Char :=
  match mains.lookup k with
  | some n => n
  | none =>
    match alls.lookup k with
    | some n => n
    | none => pyTitle k

/-- Exact-then-fuzzy payment lookup (src lines 117-134): exact lookup
defaulting to `0.0`; when that is exactly `0.0`, the first ledger entry (in
insertion order) whose key fuzzy-matches, via the first-match-wins loop. -/
def resolvePayment (pays : List (List Char × ℚ)) (k : List Char) : ℚ :=
  let exact := (pays.lookup k).getD 0
  if exact = 0 then
    match pays.find? (fun e => matchesPred k e.1) with
    | some e => e.2
    | none => 0
  else exact

/-- Python `int()` truncation toward zero on a rational. -/
def ratTrunc (q : ℚ) : ℤ :=
  if 0 ≤ q then q.floor else -((-q).floor)

/-- Python `set.add` on a set modelled as a duplicate-free-by-construction
list (only membership is ever observed). -/
def setAdd (s : List (List Char)) (k : List Char) : List (List Char) :=
  if s.contains k then s else s ++ [k]

/-- State threaded through the per-group loop (src lines 110-158). -/
structure RecSt where
  accounted : List (List Char)
  unpaid : List (List Char)
deriving DecidableEq

/-- The accounted-for marking of one group (src lines 139-149):
`guests_covered = int(payment_amount / 5.0)` with `PRICE_PER_GUEST = 5.0`;
when positive, add the main guest's key and the normalized names of the
first `min(guests_covered - 1, len(plus_ones))` dependents. -/
def groupAccounted (pays : List (List Char × ℚ)) (acc : List (List Char))
    (k : List Char) (plusOnes : List (List Char)) : List (List Char) :=
  if 0 < ratTrunc (resolvePayment pays k / 5) then
    ((plusOnes.take ((ratTrunc (resolvePayment pays k / 5) - 1).toNat ⊓ plusOnes.length)).map
      normalize_name).foldl setAdd (setAdd acc k)
  else acc

/-- The body of the per-group loop of `main` (src lines 114-158): mark the
covered members, then append the still-unaccounted members to `unpaid`. -/
def processGroup (pays : List (List Char × ℚ)) (mains alls : List (List Char × List Char))
    (st : RecSt) (g : List Char × List (List Char)) : RecSt :=
  let k := g.1
  let plusOnes := g.2
  let acc1 := groupAccounted pays st.accounted k plusOnes
  let unp1 := if acc1.contains k then st.unpaid
    else st.unpaid ++ [resolveDisplay mains alls k]
  ⟨acc1, unp1 ++ plusOnes.filter (fun p => !(acc1.contains (normalize_name p)))⟩

/-- The whole reconciliation loop (src lines 110-158). -/
def reconcile (pays : List (List Char × ℚ)) (bs : BuildSt) : RecSt :=
  bs.guestStructure.foldl (processGroup pays bs.mains bs.alls) ⟨[], []⟩

/-! ## The second pass (`main`, src lines 160-185) -/

/-- Exact-or-fuzzy payment evidence for one normalized name
(src lines 166-180). -/
def hasPaymentB (pays : List (List Char × ℚ)) (nk : List Char) : Bool :=
  (pays.lookup nk).isSome || pays.any (fun e => matchesPred nk e.1)

/-- The second pass over the tentative unpaid list (src lines 161-185):
keep a guest iff they have no payment evidence and are not exempt. -/
def secondPass (pays : List (List Char × ℚ)) (np : List (List Char))
    (unpaid : List (List Char)) : List (List Char) :=
  unpaid.filter (fun g =>
    !hasPaymentB pays (normalize_name g) && !np.contains (normalize_name g))

/-- `main` (src lines 55-206) up to the printed reports: returns
(Blacklist, DefinitelyUnpaid). -/
def runMain (rows : List GuestRow) (wlLines npLines payLines : List (List Char)) :
    List (List Char) × List (List Char) :=
  let wl := loadNames wlLines
  let np := loadNames npLines
  let bs := buildGuests wl rows
  let pays := parse_payments payLines
  let recSt := reconcile pays bs
  (bs.blacklist, secondPass pays np recSt.unpaid)

/-! ## Helper lemmas -/

theorem buildStep_blacklist (wl : List (List Char)) (st : BuildSt) (r : GuestRow) :
    (buildStep wl st r).blacklist =
      if pyStrip r.status = goingLit then
        (if wl.contains (normalize_name (pyStrip r.name)) then st.blacklist
         else st.blacklist ++ [pyStrip r.name])
      else st.blacklist := by
  unfold buildStep
  by_cases hs : pyStrip r.status = goingLit
  · by_cases hw : wl.contains (normalize_name (pyStrip r.name)) <;>
      cases hp : (pyStrip r.plusOneOf).isEmpty <;> simp [hs, hw, hp]
  · simp [hs]

theorem buildGuests_blacklist_aux (wl : List (List Char)) :
    ∀ (rows : List GuestRow) (st : BuildSt),
      (rows.foldl (buildStep wl) st).blacklist =
        st.blacklist ++ (rows.filter (fun r => pyStrip r.status == goingLit
            && !wl.contains (normalize_name (pyStrip r.name)))).map (fun r => pyStrip r.name)
  | [], st => by simp
  | r :: rows, st => by
    rw [List.foldl_cons, buildGuests_blacklist_aux wl rows, List.filter_cons]
    by_cases hs : pyStrip r.status = goingLit
    · by_cases hw : normalize_name (pyStrip r.name) ∈ wl
      · have hw' : wl.contains (normalize_name (pyStrip r.name)) = true := List.elem_iff.mpr hw
        simp [buildStep_blacklist, hs, hw, hw', beq_iff_eq]
      · have hw' : wl.contains (normalize_name (pyStrip r.name)) = false := by
          rw [← Bool.not_eq_true]
          exact fun h => hw (List.elem_iff.mp h)
        simp [buildStep_blacklist, hs, hw, hw', beq_iff_eq]
    · have hs' : (pyStrip r.status == goingLit) = false := beq_eq_false_iff_ne.mpr hs
      simp [buildStep_blacklist, hs, hs']

/-! ## The claims -/

/-- C7: the fuzzy-match predicate is symmetric — `matches a b = matches b a`
for all names — but not transitive: it relates "xa" to "a" and "a" to "ay",
yet not "xa" to "ay". -/
theorem matchesPred_symm_and_not_trans :
    (∀ a b : List Char, matchesPred a b = matchesPred b a) ∧
    matchesPred ("xa".data) ("a".data) = true ∧
    matchesPred ("a".data) ("ay".data) = true ∧
    matchesPred ("xa".data) ("ay".data) = false := by
  refine ⟨?_, by decide, by decide, by decide⟩
  intro a b
  have hbeq : (firstWord a == firstWord b) = (firstWord b == firstWord a) := by
    by_cases h : firstWord a = firstWord b
    · rw [h]
    · rw [beq_eq_false_iff_ne.mpr h, beq_eq_false_iff_ne.mpr (Ne.symm h)]
  unfold matchesPred
  rw [hbeq]
  cases isSub a b <;> cases isSub b a <;> cases firstWord b == firstWord a <;>
    cases isSub (firstWord a) b <;> cases isSub (firstWord b) a <;> rfl

/-- C8: a line that (after stripping) ends with a colon and contains neither
"paid" nor "sent" (case-insensitively) leaves the ledger unchanged. -/
theorem separator_line_ignored (led : List (List Char × ℚ)) (raw : List Char)
    (h1 : endsColon (pyStrip raw) = true)
    (h2 : containsCI paidLit (pyStrip raw) = false)
    (h3 : containsCI sentLit (pyStrip raw) = false) :
    processLine led raw = led := by
  have hne : (pyStrip raw).isEmpty = false := by
    cases hl : pyStrip raw with
    | nil => rw [hl] at h1; exact absurd h1 (by decide)
    | cons c t => rfl
  simp [processLine, hne, h1, h2, h3]

theorem separator_line_ignored_witness :
    endsColon (pyStrip ("86753:".data)) = true ∧
    containsCI paidLit (pyStrip ("86753:".data)) = false ∧
    processLine [] ("86753:".data) = [] :=
  ⟨by decide, by decide,
    separator_line_ignored [] ("86753:".data) (by decide) (by decide) (by decide)⟩

/-- C3: no guest whose normalized name is in the no-pay set ever appears in
the DefinitelyUnpaid report, whatever the other inputs are. -/
theorem noPaySet_never_in_definitelyUnpaid
    (rows : List GuestRow) (wlL npL payL : List (List Char)) :
    ((runMain rows wlL npL payL).2.all
      (fun g => !((loadNames npL).contains (normalize_name g)))) = true := by
  rw [List.all_eq_true]
  intro g hg
  have hg2 : g ∈ secondPass (parse_payments payL) (loadNames npL)
      (reconcile (parse_payments payL) (buildGuests (loadNames wlL) rows)).unpaid := hg
  unfold secondPass at hg2
  rw [List.mem_filter, Bool.and_eq_true] at hg2
  exact hg2.2.2

/-- C4: the Blacklist is exactly the stripped names of the "Going" rows whose
normalized name is not whitelisted, in input-row order, and it does not
depend on the payments input. -/
theorem blacklist_spec (rows : List GuestRow) (wlL npL payL payL' : List (List Char)) :
    (runMain rows wlL npL payL).1 =
      (rows.filter (fun r => pyStrip r.status == goingLit
          && !(loadNames wlL).contains (normalize_name (pyStrip r.name)))).map
        (fun r => pyStrip r.name)
    ∧ (runMain rows wlL npL payL).1 = (runMain rows wlL npL payL').1 := by
  constructor
  · have h := buildGuests_blacklist_aux (loadNames wlL) rows ⟨[], [], [], []⟩
    simpa using h
  · rfl

/-- C10: the reports can contain duplicates — a repeated "Going" row puts the
same display name on the Blacklist twice, and a name listed as a plus-one of
two different main guests can appear twice in DefinitelyUnpaid. -/
theorem reports_can_contain_duplicates :
    ((runMain [⟨"Dup".data, "Going".data, "".data⟩, ⟨"Dup".data, "Going".data, "".data⟩]
        [] [] []).1.count ("Dup".data) = 2)
    ∧ ((runMain [⟨"A".data, "Going".data, "".data⟩, ⟨"Bob".data, "Going".data, "A".data⟩,
          ⟨"C".data, "Going".data, "".data⟩, ⟨"Bob".data, "Going".data, "C".data⟩]
        ["a".data, "bob".data, "c".data] [] []).2.count ("Bob".data) = 2) := by
  exact ⟨rfl, by with_unfolding_all rfl⟩

theorem parseAmount_nonneg (s : List Char) : 0 ≤ parseAmount s := by
  unfold parseAmount
  split
  · positivity
  · positivity

theorem ledgerAdd_nonneg (led : List (List Char × ℚ)) (k : List Char) (a : ℚ)
    (hled : ∀ e ∈ led, 0 ≤ e.2) (ha : 0 ≤ a) : ∀ e ∈ ledgerAdd led k a, 0 ≤ e.2 := by
  intro e he
  unfold ledgerAdd at he
  split at he
  · rw [List.mem_map] at he
    obtain ⟨e0, he0, rfl⟩ := he
    by_cases h : e0.1 = k
    · simpa [h] using add_nonneg (hled e0 he0) ha
    · simpa [h] using hled e0 he0
  · rw [List.mem_append] at he
    rcases he with he | he
    · exact hled e he
    · rw [List.mem_singleton] at he
      subst he
      exact ha

theorem processLine_nonneg (led : List (List Char × ℚ)) (raw : List Char)
    (h : ∀ e ∈ led, 0 ≤ e.2) : ∀ e ∈ processLine led raw, 0 ≤ e.2 := by
  intro e he
  simp only [processLine] at he
  split at he
  · exact h e he
  split at he
  · exact h e he
  split at he
  · exact ledgerAdd_nonneg _ _ _ h (parseAmount_nonneg _) e he
  split at he
  · exact ledgerAdd_nonneg _ _ _ h (parseAmount_nonneg _) e he
  · exact h e he

/-- C9: every value stored in the ledger is non-negative, both as an
invariant preserved by each processed line and for the finished result of
`parse_payments`. -/
theorem ledger_values_nonneg :
    (∀ (led : List (List Char × ℚ)) (raw : List Char), (∀ e ∈ led, 0 ≤ e.2) →
      ∀ e ∈ processLine led raw, 0 ≤ e.2)
    ∧ (∀ lines : List (List Char), ∀ e ∈ parse_payments lines, 0 ≤ e.2) := by
  have haux : ∀ (lines : List (List Char)) (led : List (List Char × ℚ)),
      (∀ e ∈ led, 0 ≤ e.2) → ∀ e ∈ lines.foldl processLine led, 0 ≤ e.2 := by
    intro lines
    induction lines with
    | nil => intro led h; exact h
    | cons l t ih =>
      intro led h
      exact ih (processLine led l) (processLine_nonneg led l h)
  exact ⟨processLine_nonneg, fun lines => haux lines [] (by simp)⟩

theorem ledger_values_nonneg_witness : ((0:ℚ) ≤ 10) ∧ ((0:ℚ) ≤ 10) :=
  ⟨ledger_values_nonneg.1 [] ("Bob paid you $10".data) (by simp) (("bob".data, 10))
      (by with_unfolding_all decide),
   ledger_values_nonneg.2 ["Bob paid you $10".data] (("bob".data, 10))
      (by with_unfolding_all decide)⟩

/-- C6: the engine resolves a group's payment by exact lookup (default 0.0);
the fuzzy scan is used exactly when that is 0.0, and then the first
insertion-order entry whose key fuzzy-matches supplies the amount (0 when
no entry matches). -/
theorem resolvePayment_spec :
    (∀ (pays : List (List Char × ℚ)) (k : List Char),
        (pays.lookup k).getD 0 ≠ 0 → resolvePayment pays k = (pays.lookup k).getD 0)
    ∧ (∀ (pays₁ pays₂ : List (List Char × ℚ)) (pk k : List Char) (a : ℚ),
        (((pays₁ ++ (pk, a) :: pays₂).lookup k).getD 0 = 0) →
        (∀ e ∈ pays₁, matchesPred k e.1 = false) →
        matchesPred k pk = true →
        resolvePayment (pays₁ ++ (pk, a) :: pays₂) k = a)
    ∧ (∀ (pays : List (List Char × ℚ)) (k : List Char),
        (pays.lookup k).getD 0 = 0 → (∀ e ∈ pays, matchesPred k e.1 = false) →
        resolvePayment pays k = 0) := by
  refine ⟨?_, ?_, ?_⟩
  · intro pays k h
    unfold resolvePayment
    rw [if_neg h]
  · intro pays₁ pays₂ pk k a h h1 hpk
    unfold resolvePayment
    rw [if_pos h]
    have hfind : List.find? (fun e => matchesPred k e.1) (pays₁ ++ (pk, a) :: pays₂)
        = some (pk, a) := by
      clear h
      induction pays₁ with
      | nil => exact List.find?_cons_of_pos _ hpk
      | cons e t ih =>
        rw [List.cons_append,
          List.find?_cons_of_neg _ (by simp [h1 e (List.mem_cons_self e t)])]
        exact ih (fun x hx => h1 x (List.mem_cons_of_mem e hx))
    rw [hfind]
  · intro pays k h h1
    unfold resolvePayment
    rw [if_pos h, List.find?_eq_none.mpr (fun x hx => by simp [h1 x hx])]

theorem mem_setAdd_iff (s : List (List Char)) (k x : List Char) :
    x ∈ setAdd s k ↔ x ∈ s ∨ x = k := by
  unfold setAdd
  split
  · rename_i h
    constructor
    · exact Or.inl
    · rintro (hx | rfl)
      · exact hx
      · exact List.elem_iff.mp h
  · simp

theorem mem_foldl_setAdd_iff (l : List (List Char)) (init : List (List Char)) (x : List Char) :
    x ∈ l.foldl setAdd init ↔ x ∈ init ∨ x ∈ l := by
  induction l generalizing init with
  | nil => simp
  | cons a t ih =>
    rw [List.foldl_cons, ih, mem_setAdd_iff, List.mem_cons]
    tauto

/-- C1: when a group's resolved payment is at least `5 × (1 + k)` with
`k ≤` the dependent count, the covered marking is exactly the main guest
plus the first `min(guestsCovered − 1, dependentCount)` dependents in group
order, and neither the main guest nor any of the first `k` dependents is
appended to the tentative unpaid sequence. -/
theorem group_coverage (pays : List (List Char × ℚ)) (mains alls : List (List Char × List Char))
    (acc unp : List (List Char)) (k : List Char) (plusOnes : List (List Char)) (kk : ℕ)
    (hamt : 5 * (1 + (kk : ℚ)) ≤ resolvePayment pays k)
    (hk : kk ≤ plusOnes.length) :
    groupAccounted pays acc k plusOnes =
      ((plusOnes.take ((ratTrunc (resolvePayment pays k / 5) - 1).toNat ⊓ plusOnes.length)).map
        normalize_name).foldl setAdd (setAdd acc k)
    ∧ processGroup pays mains alls ⟨acc, unp⟩ (k, plusOnes) =
      ⟨groupAccounted pays acc k plusOnes,
        unp ++ plusOnes.filter
          (fun p => !((groupAccounted pays acc k plusOnes).contains (normalize_name p)))⟩
    ∧ ∀ p ∈ plusOnes.take kk, p ∉ plusOnes.filter
        (fun p => !((groupAccounted pays acc k plusOnes).contains (normalize_name p))) := by
  have h5 : (0:ℚ) < 5 := by norm_num
  have hq : (1 + (kk:ℚ)) ≤ resolvePayment pays k / 5 := by
    rw [le_div_iff₀ h5]
    linarith
  have h0 : (0:ℚ) ≤ resolvePayment pays k / 5 := le_trans (by positivity) hq
  have hfloor : (1 + (kk:ℤ)) ≤ (resolvePayment pays k / 5).floor := by
    rw [Rat.le_floor]
    push_cast
    exact hq
  have htr : ratTrunc (resolvePayment pays k / 5) = (resolvePayment pays k / 5).floor := by
    unfold ratTrunc
    rw [if_pos h0]
  have hpos : 0 < ratTrunc (resolvePayment pays k / 5) := by
    rw [htr]
    have : (0:ℤ) ≤ (kk:ℤ) := Int.natCast_nonneg kk
    linarith
  have hkn : kk ≤ (ratTrunc (resolvePayment pays k / 5) - 1).toNat ⊓ plusOnes.length := by
    refine le_min ?_ hk
    rw [htr]
    omega
  have hga : groupAccounted pays acc k plusOnes =
      ((plusOnes.take ((ratTrunc (resolvePayment pays k / 5) - 1).toNat ⊓ plusOnes.length)).map
        normalize_name).foldl setAdd (setAdd acc k) := by
    unfold groupAccounted
    rw [if_pos hpos]
  have hkmem : k ∈ groupAccounted pays acc k plusOnes := by
    rw [hga, mem_foldl_setAdd_iff, mem_setAdd_iff]
    exact Or.inl (Or.inr rfl)
  refine ⟨hga, ?_, ?_⟩
  · have hcont : (groupAccounted pays acc k plusOnes).contains k = true :=
      List.elem_iff.mpr hkmem
    simp only [processGroup, hcont]
    simp
  · intro p hp
    rw [List.mem_filter]
    rintro ⟨-, hpred⟩
    have hmem : normalize_name p ∈ groupAccounted pays acc k plusOnes := by
      rw [hga, mem_foldl_setAdd_iff]
      right
      rw [List.mem_map]
      refine ⟨p, ?_, rfl⟩
      have h1 : List.take kk (List.take ((ratTrunc (resolvePayment pays k / 5) - 1).toNat
          ⊓ plusOnes.length) plusOnes) = List.take kk plusOnes := by
        rw [List.take_take, min_eq_left hkn]
      rw [← h1] at hp
      exact List.take_subset _ _ hp
    have hct : (groupAccounted pays acc k plusOnes).contains (normalize_name p) = true :=
      List.elem_iff.mpr hmem
    rw [hct] at hpred
    exact Bool.noConfusion hpred

theorem group_coverage_witness :
    processGroup [("bob".data, (10:ℚ))] [] [] ⟨[], []⟩ ("bob".data, ["Ann".data]) =
      ⟨groupAccounted [("bob".data, (10:ℚ))] [] ("bob".data) ["Ann".data],
        [] ++ (["Ann".data] : List (List Char)).filter
          (fun p => !((groupAccounted [("bob".data, (10:ℚ))] [] ("bob".data)
            ["Ann".data]).contains (normalize_name p)))⟩ :=
  (group_coverage [("bob".data, (10:ℚ))] [] [] [] [] ("bob".data) ["Ann".data] 1
    (by with_unfolding_all decide) (by decide)).2.1

theorem isPrefixOf_rfl : ∀ l : List Char, l.isPrefixOf l = true
  | [] => rfl
  | c :: t => by simp [List.isPrefixOf, isPrefixOf_rfl t]

theorem isSub_refl (a : List Char) : isSub a a = true := by
  cases a with
  | nil => rfl
  | cons c t =>
    unfold isSub
    rw [Bool.or_eq_true]
    exact Or.inl (isPrefixOf_rfl (c :: t))

theorem matchesPred_refl (a : List Char) : matchesPred a a = true := by
  unfold matchesPred
  rw [isSub_refl]
  rfl

theorem groupAccounted_mono (pays : List (List Char × ℚ)) (acc : List (List Char))
    (k : List Char) (plusOnes : List (List Char)) (x : List Char) (h : x ∈ acc) :
    x ∈ groupAccounted pays acc k plusOnes := by
  unfold groupAccounted
  split
  · rw [mem_foldl_setAdd_iff, mem_setAdd_iff]
    exact Or.inl (Or.inl h)
  · exact h

theorem processGroup_acc_mono (pays : List (List Char × ℚ))
    (mains alls : List (List Char × List Char)) (st : RecSt)
    (g : List Char × List (List Char)) (x : List Char) (h : x ∈ st.accounted) :
    x ∈ (processGroup pays mains alls st g).accounted := by
  simp only [processGroup]
  exact groupAccounted_mono _ _ _ _ _ h

theorem processGroup_unp_mono (pays : List (List Char × ℚ))
    (mains alls : List (List Char × List Char)) (st : RecSt)
    (g : List Char × List (List Char)) (x : List Char) (h : x ∈ st.unpaid) :
    x ∈ (processGroup pays mains alls st g).unpaid := by
  simp only [processGroup]
  rw [List.mem_append]
  left
  split
  · exact h
  · exact List.mem_append_left _ h

theorem foldl_processGroup_acc_mono (pays : List (List Char × ℚ))
    (mains alls : List (List Char × List Char)) :
    ∀ (gs : List (List Char × List (List Char))) (st : RecSt) (x : List Char),
      x ∈ st.accounted → x ∈ (gs.foldl (processGroup pays mains alls) st).accounted
  | [], _, _, h => h
  | g :: t, st, x, h =>
    foldl_processGroup_acc_mono pays mains alls t _ x
      (processGroup_acc_mono pays mains alls st g x h)

theorem foldl_processGroup_unp_mono (pays : List (List Char × ℚ))
    (mains alls : List (List Char × List Char)) :
    ∀ (gs : List (List Char × List (List Char))) (st : RecSt) (x : List Char),
      x ∈ st.unpaid → x ∈ (gs.foldl (processGroup pays mains alls) st).unpaid
  | [], _, _, h => h
  | g :: t, st, x, h =>
    foldl_processGroup_unp_mono pays mains alls t _ x
      (processGroup_unp_mono pays mains alls st g x h)

theorem processGroup_main_unpaid (pays : List (List Char × ℚ))
    (mains alls : List (List Char × List Char)) (st : RecSt)
    (k : List Char) (deps : List (List Char))
    (h : k ∉ (processGroup pays mains alls st (k, deps)).accounted) :
    resolveDisplay mains alls k ∈ (processGroup pays mains alls st (k, deps)).unpaid := by
  have hc : (groupAccounted pays st.accounted k deps).contains k = false := by
    cases hb : (groupAccounted pays st.accounted k deps).contains k
    · rfl
    · exact absurd (List.elem_iff.mp hb) (by simpa [processGroup] using h)
  simp only [processGroup, hc]
  simp

theorem mem_unpaid_of_never_accounted (pays : List (List Char × ℚ))
    (mains alls : List (List Char × List Char)) :
    ∀ (gs : List (List Char × List (List Char))) (st : RecSt) (k : List Char)
      (deps : List (List Char)), (k, deps) ∈ gs →
      k ∉ (gs.foldl (processGroup pays mains alls) st).accounted →
      resolveDisplay mains alls k ∈ (gs.foldl (processGroup pays mains alls) st).unpaid
  | [], _, _, _, hmem, _ => absurd hmem (List.not_mem_nil _)
  | g :: t, st, k, deps, hmem, hnot => by
    rw [List.foldl_cons] at hnot ⊢
    rcases List.mem_cons.mp hmem with heq | htail
    · rw [← heq] at hnot ⊢
      by_cases hacc : k ∈ (processGroup pays mains alls st (k, deps)).accounted
      · exact absurd (foldl_processGroup_acc_mono pays mains alls t _ k hacc) hnot
      · exact foldl_processGroup_unp_mono pays mains alls t _ _
          (processGroup_main_unpaid pays mains alls st k deps hacc)
    · exact mem_unpaid_of_never_accounted pays mains alls t _ k deps htail hnot

/-- C2 (amended): a main guest whose group resolves to a payment of 0 or
below 5.0, who is never marked accounted-for during reconciliation (in
particular is not covered as a dependent of another group), whose
normalized display name fuzzy-matches no ledger key, and who is not in the
no-pay set, appears in the DefinitelyUnpaid report. -/
theorem unaccounted_main_guest_reported (rows : List GuestRow)
    (wlL npL payL : List (List Char)) (k : List Char) (deps : List (List Char))
    (hgrp : (k, deps) ∈ (buildGuests (loadNames wlL) rows).guestStructure)
    (_hamt : resolvePayment (parse_payments payL) k = 0
      ∨ resolvePayment (parse_payments payL) k < 5)
    (hnoacc : k ∉ (reconcile (parse_payments payL) (buildGuests (loadNames wlL) rows)).accounted)
    (hfuzzy : ∀ e ∈ parse_payments payL,
      matchesPred (normalize_name (resolveDisplay (buildGuests (loadNames wlL) rows).mains
        (buildGuests (loadNames wlL) rows).alls k)) e.1 = false)
    (hnp : (loadNames npL).contains (normalize_name (resolveDisplay
      (buildGuests (loadNames wlL) rows).mains
      (buildGuests (loadNames wlL) rows).alls k)) = false) :
    resolveDisplay (buildGuests (loadNames wlL) rows).mains
      (buildGuests (loadNames wlL) rows).alls k ∈ (runMain rows wlL npL payL).2 := by
  have hunp : resolveDisplay (buildGuests (loadNames wlL) rows).mains
      (buildGuests (loadNames wlL) rows).alls k
      ∈ (reconcile (parse_payments payL) (buildGuests (loadNames wlL) rows)).unpaid :=
    mem_unpaid_of_never_accounted _ _ _ _ _ _ _ hgrp hnoacc
  have hhp : hasPaymentB (parse_payments payL)
      (normalize_name (resolveDisplay (buildGuests (loadNames wlL) rows).mains
        (buildGuests (loadNames wlL) rows).alls k)) = false := by
    unfold hasPaymentB
    rw [Bool.or_eq_false_iff]
    constructor
    · cases hl : (parse_payments payL).lookup (normalize_name
          (resolveDisplay (buildGuests (loadNames wlL) rows).mains
            (buildGuests (loadNames wlL) rows).alls k)) with
      | none => rfl
      | some v =>
        exfalso
        obtain ⟨l₁, l₂, hsplit, -⟩ := List.lookup_eq_some_iff.mp hl
        have hmem : (normalize_name (resolveDisplay (buildGuests (loadNames wlL) rows).mains
            (buildGuests (loadNames wlL) rows).alls k), v) ∈ parse_payments payL := by
          rw [hsplit]
          exact List.mem_append_right _ (List.mem_cons_self _ _)
        have := hfuzzy _ hmem
        rw [matchesPred_refl] at this
        exact Bool.noConfusion this
    · cases ha : (parse_payments payL).any (fun e =>
          matchesPred (normalize_name (resolveDisplay (buildGuests (loadNames wlL) rows).mains
            (buildGuests (loadNames wlL) rows).alls k)) e.1) with
      | false => rfl
      | true =>
        exfalso
        rw [List.any_eq_true] at ha
        obtain ⟨e, he, hpe⟩ := ha
        rw [hfuzzy e he] at hpe
        exact Bool.noConfusion hpe
  show _ ∈ secondPass (parse_payments payL) (loadNames npL)
    (reconcile (parse_payments payL) (buildGuests (loadNames wlL) rows)).unpaid
  refine List.mem_filter.mpr ⟨hunp, ?_⟩
  rw [hhp, hnp]
  rfl

theorem unaccounted_main_guest_reported_witness :
    resolveDisplay (buildGuests (loadNames []) [⟨"Ann".data, "Going".data, "".data⟩]).mains
      (buildGuests (loadNames []) [⟨"Ann".data, "Going".data, "".data⟩]).alls ("ann".data)
      ∈ (runMain [⟨"Ann".data, "Going".data, "".data⟩] [] [] []).2 :=
  unaccounted_main_guest_reported [⟨"Ann".data, "Going".data, "".data⟩] [] [] []
    ("ann".data) [] (by decide) (Or.inl (by with_unfolding_all decide))
    (by with_unfolding_all decide) (by simp [parse_payments]) (by decide)

/-- C2 counterexample: "Ann" is a main guest whose group resolves to payment
0, has no fuzzy payment evidence in the ledger, and is not exempt, yet the
DefinitelyUnpaid report is empty — she was covered as a dependent of "Bob",
so the claim as stated fails. -/
theorem small_payment_counterexample :
    resolvePayment (parse_payments ["Bob paid you $10".data]) ("ann".data) = 0
    ∧ ("ann".data, ([] : List (List Char)))
        ∈ (buildGuests (loadNames ["ann".data, "bob".data])
            [⟨"Bob".data, "Going".data, "".data⟩, ⟨"Ann".data, "Going".data, "Bob".data⟩,
              ⟨"Ann".data, "Going".data, "".data⟩]).guestStructure
    ∧ (∀ e ∈ parse_payments ["Bob paid you $10".data], matchesPred ("ann".data) e.1 = false)
    ∧ ((loadNames []).contains ("ann".data) = false)
    ∧ (runMain [⟨"Bob".data, "Going".data, "".data⟩, ⟨"Ann".data, "Going".data, "Bob".data⟩,
          ⟨"Ann".data, "Going".data, "".data⟩]
        ["ann".data, "bob".data] [] ["Bob paid you $10".data]).2 = [] := by
  refine ⟨by with_unfolding_all decide, by with_unfolding_all decide,
    by with_unfolding_all decide, by decide, by with_unfolding_all rfl⟩

/-! ## Character-level lemmas for the regex model -/

theorem lowerChar_of_space {c : Char} (h : isSpaceCh c = true) : lowerChar c = c := by
  simp only [isSpaceCh, Bool.or_eq_true, decide_eq_true_iff] at h
  rcases h with ⟨⟨⟨⟨h | h⟩ | h⟩ | h⟩ | h⟩ | h <;> subst h <;> decide

theorem not_space_of_lower_mem {c : Char} {kw : List Char}
    (hmem : lowerChar c ∈ kw) (hkw : ∀ x ∈ kw, isSpaceCh x = false) :
    isSpaceCh c = false := by
  cases h : isSpaceCh c
  · rfl
  · rw [lowerChar_of_space h] at hmem
    rw [← hkw c hmem, h]

theorem ne_dollar_of_lower_mem {c : Char} {kw : List Char}
    (hmem : lowerChar c ∈ kw) (hkw : '$' ∉ kw) : c ≠ '$' := by
  rintro rfl
  exact hkw hmem

theorem not_space_of_alpha {c : Char} (h : isAlphaCh c = true) : isSpaceCh c = false := by
  cases hs : isSpaceCh c
  · rfl
  · exfalso
    simp only [isSpaceCh, Bool.or_eq_true, decide_eq_true_iff] at hs
    rcases hs with ⟨⟨⟨⟨hs | hs⟩ | hs⟩ | hs⟩ | hs⟩ | hs <;> subst hs <;> exact Bool.noConfusion h

theorem toNat_charOfNat (n : Nat) (h : n.isValidChar) : (Char.ofNat n).toNat = n := by
  unfold Char.ofNat
  rw [dif_pos h]
  rfl

theorem eq_colon_of_lowerChar {c : Char} (h : lowerChar c = ':') : c = ':' := by
  unfold lowerChar at h
  by_cases hc : ('A' ≤ c && c ≤ 'Z') = true
  · exfalso
    rw [if_pos hc] at h
    simp only [Bool.and_eq_true, decide_eq_true_iff] at hc
    have h1 : 65 ≤ c.toNat := hc.1
    have h2 : c.toNat ≤ 90 := hc.2
    have hv : (c.toNat + 32).isValidChar := Or.inl (by omega)
    have := congrArg Char.toNat h
    rw [toNat_charOfNat _ hv] at this
    have hcolon : (':' : Char).toNat = 58 := rfl
    rw [hcolon] at this
    omega
  · rw [if_neg hc] at h
    exact h

theorem map_lower_not_space {P kw : List Char} (hP : P.map lowerChar = kw)
    (hkw : ∀ x ∈ kw, isSpaceCh x = false) : ∀ c ∈ P, isSpaceCh c = false := by
  intro c hc
  refine not_space_of_lower_mem ?_ hkw
  rw [← hP]
  exact List.mem_map_of_mem lowerChar hc

theorem map_lower_not_dollar {P kw : List Char} (hP : P.map lowerChar = kw)
    (hkw : '$' ∉ kw) : '$' ∉ P := by
  intro h
  apply hkw
  have : lowerChar '$' ∈ kw := by
    rw [← hP]
    exact List.mem_map_of_mem lowerChar h
  exact this

/-! ## Characterizations of the parsing combinators -/

theorem expectCI_append (P rest : List Char) :
    expectCI (P.map lowerChar) (P ++ rest) = some rest := by
  induction P with
  | nil => rfl
  | cons c t ih => simp [expectCI, ih]

theorem expectCI_some : ∀ {kw s r : List Char}, expectCI kw s = some r →
    ∃ pre, s = pre ++ r ∧ pre.map lowerChar = kw := by
  intro kw
  induction kw with
  | nil =>
    intro s r h
    exact ⟨[], by simpa using Option.some.inj h, rfl⟩
  | cons p ps ih =>
    intro s r h
    cases s with
    | nil => exact absurd h (by simp [expectCI])
    | cons c cs =>
      unfold expectCI at h
      by_cases hc : lowerChar c = p
      · rw [if_pos hc] at h
        obtain ⟨pre, hpre1, hpre2⟩ := ih h
        exact ⟨c :: pre, by simp [hpre1], by simp [hpre2, hc]⟩
      · rw [if_neg hc] at h
        exact absurd h (by simp)

theorem dropWhile_of_head_false {p : Char → Bool} {l : List Char}
    (h : ∀ c, l.head? = some c → p c = false) : l.dropWhile p = l := by
  cases l with
  | nil => rfl
  | cons c t => simp [List.dropWhile_cons, h c rfl]

theorem takeSpaces1_space_append {r : List Char}
    (h : ∀ c, r.head? = some c → isSpaceCh c = false) :
    takeSpaces1 (' ' :: r) = some r := by
  show (if isSpaceCh ' ' = true then some (r.dropWhile isSpaceCh) else none) = some r
  rw [if_pos (by decide)]
  rw [dropWhile_of_head_false h]

theorem takeSpaces1_some {s r : List Char} (h : takeSpaces1 s = some r) :
    ∃ sp, s = sp ++ r ∧ sp ≠ [] ∧ (∀ c ∈ sp, isSpaceCh c = true) := by
  cases s with
  | nil => exact absurd h (by simp [takeSpaces1])
  | cons c cs =>
    have h' : (if isSpaceCh c = true then some (cs.dropWhile isSpaceCh) else none)
        = some r := h
    by_cases hc : isSpaceCh c = true
    · rw [if_pos hc] at h'
      obtain rfl := Option.some.inj h' 
      refine ⟨c :: cs.takeWhile isSpaceCh, ?_, by simp, ?_⟩
      · rw [List.cons_append, List.takeWhile_append_dropWhile]
      · intro x hx
        rcases List.mem_cons.mp hx with rfl | hx
        · exact hc
        · exact List.mem_takeWhile_imp hx
    · rw [if_neg hc] at h'
      exact absurd h' (by simp)

theorem takeWhile_eq_self_of_all {p : Char → Bool} {l : List Char}
    (h : ∀ c ∈ l, p c = true) : l.takeWhile p = l := by
  induction l with
  | nil => rfl
  | cons c t ih =>
    rw [List.takeWhile_cons, if_pos (h c (List.mem_cons_self c t))]
    rw [ih (fun x hx => h x (List.mem_cons_of_mem c hx))]

theorem takeWhile_append_of_all {p : Char → Bool} {l r : List Char}
    (h : ∀ c ∈ l, p c = true) : (l ++ r).takeWhile p = l ++ r.takeWhile p := by
  induction l with
  | nil => rfl
  | cons c t ih =>
    rw [List.cons_append, List.takeWhile_cons, if_pos (h c (List.mem_cons_self c t))]
    rw [ih (fun x hx => h x (List.mem_cons_of_mem c hx)), List.cons_append]

theorem dropWhile_append_of_all {p : Char → Bool} {l r : List Char}
    (h : ∀ c ∈ l, p c = true) : (l ++ r).dropWhile p = r.dropWhile p := by
  induction l with
  | nil => rfl
  | cons c t ih =>
    rw [List.cons_append, List.dropWhile_cons, if_pos (h c (List.mem_cons_self c t))]
    exact ih (fun x hx => h x (List.mem_cons_of_mem c hx))

theorem takeAmount_full {D T : List Char} (hD : D ≠ [])
    (hDd : ∀ c ∈ D, isDigitCh c = true)
    (hT : T = [] ∨ ∃ F, T = '.' :: F ∧ ∀ c ∈ F, isDigitCh c = true) :
    takeAmount (D ++ T) = some (D ++ T) := by
  have hDe : D.isEmpty = false := by
    cases D with
    | nil => exact absurd rfl hD
    | cons c t => rfl
  have hta : ∀ s : List Char, takeAmount s =
      if (s.takeWhile isDigitCh).isEmpty = true then none
      else match s.dropWhile isDigitCh with
        | '.' :: s2 => some (s.takeWhile isDigitCh ++ '.' :: s2.takeWhile isDigitCh)
        | _ => some (s.takeWhile isDigitCh) := fun s => rfl
  rcases hT with rfl | ⟨F, rfl, hF⟩
  · have hdw : D.dropWhile isDigitCh = [] := by
      have h := @dropWhile_append_of_all isDigitCh D [] hDd
      simpa using h
    rw [List.append_nil, hta, takeWhile_eq_self_of_all hDd, hdw, hDe]
    simp
  · have h1 : (('.' :: F : List Char)).takeWhile isDigitCh = [] := by
      rw [List.takeWhile_cons, if_neg (by decide)]
    have h2 : (('.' :: F : List Char)).dropWhile isDigitCh = '.' :: F := by
      rw [List.dropWhile_cons, if_neg (by decide)]
    rw [hta, takeWhile_append_of_all hDd, dropWhile_append_of_all hDd, h1, h2,
      List.append_nil, hDe]
    simp [takeWhile_eq_self_of_all hF]

theorem matchTail_full {P U D T : List Char} (kw : List Char)
    (hP : P.map lowerChar = kw) (hkw : ∀ x ∈ kw, isSpaceCh x = false) (hkne : kw ≠ [])
    (hU : U.map lowerChar = youLit)
    (hD : D ≠ []) (hDd : ∀ c ∈ D, isDigitCh c = true)
    (hT : T = [] ∨ ∃ F, T = '.' :: F ∧ ∀ c ∈ F, isDigitCh c = true) :
    matchTail kw (' ' :: (P ++ ' ' :: (U ++ ' ' :: '$' :: (D ++ T)))) = some (D ++ T) := by
  have hPne : P ≠ [] := by
    intro hh
    rw [hh] at hP
    exact hkne hP.symm
  have hUne : U ≠ [] := by
    intro hh
    rw [hh] at hU
    exact absurd hU.symm (by decide)
  have hPhead : ∀ c, (P ++ ' ' :: (U ++ ' ' :: '$' :: (D ++ T))).head? = some c →
      isSpaceCh c = false := by
    cases P with
    | nil => exact absurd rfl hPne
    | cons p ps =>
      intro c hc
      have hcp : p = c := by simpa using hc
      rw [← hcp]
      exact map_lower_not_space hP hkw p (List.mem_cons_self p ps)
  have hUhead : ∀ c, (U ++ ' ' :: '$' :: (D ++ T)).head? = some c →
      isSpaceCh c = false := by
    cases U with
    | nil => exact absurd rfl hUne
    | cons u us =>
      intro c hc
      have hcp : u = c := by simpa using hc
      rw [← hcp]
      exact map_lower_not_space hU (by decide) u (List.mem_cons_self u us)
  have hdhead : ∀ c, (('$' :: (D ++ T)) : List Char).head? = some c →
      isSpaceCh c = false := by
    intro c hc
    have hcp : '$' = c := by simpa using hc
    rw [← hcp]
    decide
  unfold matchTail
  rw [takeSpaces1_space_append hPhead, Option.some_bind, ← hP, expectCI_append,
    Option.some_bind, takeSpaces1_space_append hUhead, Option.some_bind, ← hU,
    expectCI_append, Option.some_bind, takeSpaces1_space_append hdhead, Option.some_bind]
  exact takeAmount_full hD hDd hT

theorem matchTail_shape {kw s amt : List Char} (h : matchTail kw s = some amt) :
    ∃ sp1 P' sp2 U' sp3 rest,
      s = sp1 ++ (P' ++ (sp2 ++ (U' ++ (sp3 ++ '$' :: rest))))
      ∧ sp1 ≠ [] ∧ (∀ c ∈ sp1, isSpaceCh c = true)
      ∧ P'.map lowerChar = kw
      ∧ sp2 ≠ [] ∧ (∀ c ∈ sp2, isSpaceCh c = true)
      ∧ U'.map lowerChar = youLit
      ∧ sp3 ≠ [] ∧ (∀ c ∈ sp3, isSpaceCh c = true)
      ∧ takeAmount rest = some amt := by
  unfold matchTail at h
  rw [Option.bind_eq_some] at h
  obtain ⟨s1, hs1, h⟩ := h
  rw [Option.bind_eq_some] at h
  obtain ⟨s2, hs2, h⟩ := h
  rw [Option.bind_eq_some] at h
  obtain ⟨s3, hs3, h⟩ := h
  rw [Option.bind_eq_some] at h
  obtain ⟨s4, hs4, h⟩ := h
  rw [Option.bind_eq_some] at h
  obtain ⟨s5, hs5, h⟩ := h
  obtain ⟨sp1, hsp1e, hsp1n, hsp1⟩ := takeSpaces1_some hs1
  obtain ⟨P', hP'e, hP'⟩ := expectCI_some hs2
  obtain ⟨sp2, hsp2e, hsp2n, hsp2⟩ := takeSpaces1_some hs3
  obtain ⟨U', hU'e, hU'⟩ := expectCI_some hs4
  obtain ⟨sp3, hsp3e, hsp3n, hsp3⟩ := takeSpaces1_some hs5
  split at h
  · rename_i s6
    refine ⟨sp1, P', sp2, U', sp3, s6, ?_, hsp1n, hsp1, hP', hsp2n, hsp2, hU', hsp3n, hsp3, h⟩
    rw [hsp1e, hP'e, hsp2e, hU'e, hsp3e]
  · exact absurd h (by simp)

theorem append_dollar_inj : ∀ {A C B D : List Char}, '$' ∉ A → '$' ∉ C →
    A ++ '$' :: B = C ++ '$' :: D → A = C ∧ B = D
  | [], [], B, D, _, _, h => ⟨rfl, by simpa using h⟩
  | [], c :: cs, B, D, _, hC, h => by
    exfalso
    rw [List.nil_append, List.cons_append] at h
    obtain ⟨h1, -⟩ := List.cons.inj h
    exact hC (h1 ▸ List.mem_cons_self c cs)
  | a :: as, [], B, D, hA, _, h => by
    exfalso
    rw [List.nil_append, List.cons_append] at h
    obtain ⟨h1, -⟩ := List.cons.inj h
    exact hA (h1 ▸ List.mem_cons_self a as)
  | a :: as, c :: cs, B, D, hA, hC, h => by
    rw [List.cons_append, List.cons_append] at h
    obtain ⟨rfl, h2⟩ := List.cons.inj h
    have hrec := append_dollar_inj (fun hm => hA (List.mem_cons_of_mem a hm))
      (fun hm => hC (List.mem_cons_of_mem a hm)) h2
    exact ⟨by rw [hrec.1], hrec.2⟩

theorem suffix_append_cases : ∀ {A : List Char} {B S : List Char}, S <:+ A ++ B →
    S <:+ B ∨ ∃ Z, Z <:+ A ∧ S = Z ++ B
  | [], B, S, h => Or.inl h
  | a :: A', B, S, h => by
    rw [List.cons_append] at h
    rcases List.suffix_cons_iff.mp h with heq | h'
    · right
      exact ⟨a :: A', List.suffix_rfl, by rw [heq, List.cons_append]⟩
    · rcases suffix_append_cases h' with h'' | ⟨Z, hZ, rfl⟩
      · exact Or.inl h''
      · exact Or.inr ⟨Z, hZ.trans (List.suffix_cons a A'), rfl⟩

/-- A successful `matchTail` on `Z ++ '$' :: Y` with a dollar-free `Z`
pins the whole pre-dollar part down to the shape
`spaces ++ keyword ++ spaces ++ you ++ spaces`. -/
theorem matchTail_at_dollar {kw Z Y amt : List Char}
    (h : matchTail kw (Z ++ '$' :: Y) = some amt) (hZd : '$' ∉ Z) (hkwd : '$' ∉ kw) :
    ∃ sp1 P' sp2 U' sp3,
      Z = sp1 ++ P' ++ sp2 ++ U' ++ sp3
      ∧ sp1 ≠ [] ∧ (∀ c ∈ sp1, isSpaceCh c = true)
      ∧ P'.map lowerChar = kw
      ∧ sp2 ≠ [] ∧ (∀ c ∈ sp2, isSpaceCh c = true)
      ∧ U'.map lowerChar = youLit
      ∧ sp3 ≠ [] ∧ (∀ c ∈ sp3, isSpaceCh c = true) := by
  obtain ⟨sp1, P', sp2, U', sp3, rest, hs, hsp1n, hsp1, hP', hsp2n, hsp2, hU', hsp3n, hsp3, -⟩ :=
    matchTail_shape h
  have hA : (sp1 ++ P' ++ sp2 ++ U' ++ sp3) ++ '$' :: rest = Z ++ '$' :: Y := by
    rw [hs]
    simp [List.append_assoc]
  have hAd : '$' ∉ sp1 ++ P' ++ sp2 ++ U' ++ sp3 := by
    intro hm
    simp only [List.mem_append] at hm
    rcases hm with ⟨⟨⟨hm | hm⟩ | hm⟩ | hm⟩ | hm
    · exact absurd (hsp1 _ hm) (by decide)
    · exact absurd rfl (ne_dollar_of_lower_mem (hP' ▸ List.mem_map_of_mem lowerChar hm) hkwd)
    · exact absurd (hsp2 _ hm) (by decide)
    · exact absurd rfl (ne_dollar_of_lower_mem (hU' ▸ List.mem_map_of_mem lowerChar hm) (by decide))
    · exact absurd (hsp3 _ hm) (by decide)
  obtain ⟨hZeq, -⟩ := append_dollar_inj hAd hZd hA
  exact ⟨sp1, P', sp2, U', sp3, hZeq.symm, hsp1n, hsp1, hP', hsp2n, hsp2, hU', hsp3n, hsp3⟩

theorem space_run_peel {sp B E : List Char} {d : Char}
    (hsp : ∀ c ∈ sp, isSpaceCh c = true) (hne : sp ≠ [])
    (hd : isSpaceCh d = false)
    (h : sp ++ B = ' ' :: d :: E) : sp = [' '] ∧ B = d :: E := by
  cases sp with
  | nil => exact absurd rfl hne
  | cons c sp' =>
    rw [List.cons_append] at h
    obtain ⟨rfl, h2⟩ := List.cons.inj h
    cases sp' with
    | nil => exact ⟨rfl, by simpa using h2⟩
    | cons c' sp'' =>
      exfalso
      rw [List.cons_append] at h2
      obtain ⟨rfl, -⟩ := List.cons.inj h2
      have := hsp _ (List.mem_cons_of_mem _ (List.mem_cons_self _ _))
      rw [this] at hd
      exact Bool.noConfusion hd

theorem peel_tail_shape {V P U sp1 P' sp2 U' sp3 : List Char}
    (heq : sp1 ++ P' ++ sp2 ++ U' ++ sp3 = V ++ ' ' :: (P ++ ' ' :: (U ++ [' '])))
    (hsp2n : sp2 ≠ []) (hsp2 : ∀ c ∈ sp2, isSpaceCh c = true)
    (hsp3n : sp3 ≠ []) (hsp3 : ∀ c ∈ sp3, isSpaceCh c = true)
    (hPlen : P'.length = P.length) (hUlen : U'.length = U.length)
    (hPns : ∀ c ∈ P, isSpaceCh c = false) (hPne : P ≠ [])
    (hUns : ∀ c ∈ U, isSpaceCh c = false) (hUne : U ≠ []) :
    P' = P ∧ U' = U ∧ sp1 = V ++ [' '] := by
  rcases List.eq_nil_or_concat P with rfl | ⟨P₀, p, rfl⟩
  · exact absurd rfl hPne
  rcases List.eq_nil_or_concat U with rfl | ⟨U₀, u, rfl⟩
  · exact absurd rfl hUne
  simp only [List.concat_eq_append] at heq hPlen hUlen hPns hUns ⊢
  have hps : isSpaceCh p = false := hPns p (by simp)
  have hus : isSpaceCh u = false := hUns u (by simp)
  have hrev : sp3.reverse ++ (U'.reverse ++ (sp2.reverse ++ (P'.reverse ++ sp1.reverse)))
      = ' ' :: (u :: (U₀.reverse ++ (' ' :: (p :: (P₀.reverse ++ (' ' :: V.reverse)))))) := by
    have h := congrArg List.reverse heq
    simp only [List.reverse_append, List.reverse_cons, List.reverse_nil, List.nil_append,
      List.append_assoc, List.cons_append, List.singleton_append] at h
    exact h
  obtain ⟨hsp3e, hrest⟩ := space_run_peel
    (fun c hc => hsp3 c (List.mem_reverse.mp hc))
    (fun hh => hsp3n (by simpa using congrArg List.reverse hh)) hus hrev
  have hrest' : U'.reverse ++ (sp2.reverse ++ (P'.reverse ++ sp1.reverse))
      = (u :: U₀.reverse) ++ (' ' :: (p :: (P₀.reverse ++ (' ' :: V.reverse)))) := hrest
  obtain ⟨hU'r, hrest2⟩ := List.append_inj hrest'
    (by simp [hUlen])
  have hU'eq : U' = U₀ ++ [u] := by
    have h := congrArg List.reverse hU'r
    simpa using h
  obtain ⟨hsp2e, hrest3⟩ := space_run_peel
    (fun c hc => hsp2 c (List.mem_reverse.mp hc))
    (fun hh => hsp2n (by simpa using congrArg List.reverse hh)) hps hrest2
  have hrest3' : P'.reverse ++ sp1.reverse
      = (p :: P₀.reverse) ++ (' ' :: V.reverse) := hrest3
  obtain ⟨hP'r, hrest4⟩ := List.append_inj hrest3'
    (by simp [hPlen])
  have hP'eq : P' = P₀ ++ [p] := by
    have h := congrArg List.reverse hP'r
    simpa using h
  have hsp1e : sp1 = V ++ [' '] := by
    have h := congrArg List.reverse hrest4
    simpa using h
  exact ⟨hP'eq, hU'eq, hsp1e⟩

theorem matchTail_min_length {kw Z Y amt : List Char}
    (h : matchTail kw (Z ++ '$' :: Y) = some amt) (hZd : '$' ∉ Z) (hkwd : '$' ∉ kw) :
    kw.length + 6 ≤ Z.length := by
  obtain ⟨sp1, P', sp2, U', sp3, hZ, hsp1n, -, hP', hsp2n, -, hU', hsp3n, -⟩ :=
    matchTail_at_dollar h hZd hkwd
  have h1 : 1 ≤ sp1.length := List.length_pos.mpr hsp1n
  have h2 : 1 ≤ sp2.length := List.length_pos.mpr hsp2n
  have h3 : 1 ≤ sp3.length := List.length_pos.mpr hsp3n
  have hP'len : P'.length = kw.length := by
    have h := congrArg List.length hP'
    simpa using h
  have hU'len : U'.length = 3 := by
    have h := congrArg List.length hU'
    simpa using h
  rw [hZ]
  simp only [List.length_append]
  omega

/-- A successful paid/sent `matchTail` whose argument has the exact shape of
the tail of a well-formed payment line forces the keyword to agree and the
leading part to be all spaces. -/
theorem matchTail_decomp {kw V P U Y amt : List Char}
    (h : matchTail kw (V ++ ' ' :: (P ++ ' ' :: (U ++ ' ' :: '$' :: Y))) = some amt)
    (hVd : '$' ∉ V) (hkwd : '$' ∉ kw)
    (hklen : kw.length = P.length)
    (hPns : ∀ c ∈ P, isSpaceCh c = false) (hPne : P ≠ [])
    (hPd : '$' ∉ P)
    (hU : U.map lowerChar = youLit) :
    P.map lowerChar = kw ∧ (∀ c ∈ V, isSpaceCh c = true) := by
  have hUns : ∀ c ∈ U, isSpaceCh c = false := map_lower_not_space hU (by decide)
  have hUne : U ≠ [] := by
    intro hh
    rw [hh] at hU
    exact absurd hU.symm (by decide)
  have hUd : '$' ∉ U := map_lower_not_dollar hU (by decide)
  have harg : V ++ ' ' :: (P ++ ' ' :: (U ++ ' ' :: '$' :: Y))
      = (V ++ ' ' :: (P ++ ' ' :: (U ++ [' ']))) ++ '$' :: Y := by
    simp [List.append_assoc]
  rw [harg] at h
  have hZd : '$' ∉ V ++ ' ' :: (P ++ ' ' :: (U ++ [' '])) := by
    intro hm
    simp only [List.mem_append, List.mem_cons, List.mem_singleton] at hm
    rcases hm with hm | hm | hm | hm | hm | hm
    · exact hVd hm
    · exact absurd hm (by decide)
    · exact hPd hm
    · exact absurd hm (by decide)
    · exact hUd hm
    · exact absurd hm (by decide)
  obtain ⟨sp1, P', sp2, U', sp3, hZ, hsp1n, hsp1, hP', hsp2n, hsp2, hU', hsp3n, hsp3⟩ :=
    matchTail_at_dollar h hZd hkwd
  have hPlen' : P'.length = P.length := by
    have hl := congrArg List.length hP'
    simp only [List.length_map] at hl
    rw [hl, hklen]
  have hUlen' : U'.length = U.length := by
    have hl := congrArg List.length hU'
    simp only [List.length_map] at hl
    have hl2 := congrArg List.length hU
    simp only [List.length_map] at hl2
    rw [hl, hl2]
  obtain ⟨hP'P, hU'U, hsp1e⟩ := peel_tail_shape hZ.symm hsp2n hsp2 hsp3n hsp3
    hPlen' hUlen' hPns hPne hUns hUne
  constructor
  · rw [← hP'P]
    exact hP'
  · intro c hc
    exact hsp1 c (by rw [hsp1e]; exact List.mem_append_left _ hc)

theorem nameLoop_none (kw : List Char) : ∀ (s : List Char) (acc : List Char),
    (∀ S, S <:+ s → matchTail kw S = none) → nameLoop kw acc s = none
  | [], _, _ => rfl
  | c :: rest, acc, h => by
    have hmt := h rest (List.suffix_cons c rest)
    unfold nameLoop
    rw [hmt]
    by_cases hc : nameCh c = true
    · rw [if_pos hc]
      exact nameLoop_none kw rest (acc ++ [c])
        (fun S hS => h S (hS.trans (List.suffix_cons c rest)))
    · rw [if_neg hc]

theorem searchPaid_none_of : ∀ (line : List Char),
    (∀ S, S <:+ line → matchTail paidLit S = none) → searchPaid line = none
  | [], _ => rfl
  | c :: rest, h => by
    have h1 : nameStart paidLit (c :: rest) = none := by
      show (if isAlphaCh c = true then nameLoop paidLit [c] rest else none) = none
      by_cases hc : isAlphaCh c = true
      · rw [if_pos hc]
        exact nameLoop_none paidLit rest [c]
          (fun S hS => h S (hS.trans (List.suffix_cons c rest)))
      · rw [if_neg hc]
    unfold searchPaid
    rw [h1]
    exact searchPaid_none_of rest (fun S hS => h S (hS.trans (List.suffix_cons c rest)))

theorem nameLoop_run (kw : List Char) : ∀ (X₂ acc tail amt : List Char),
    X₂ ≠ [] → (∀ c ∈ X₂, nameCh c = true) →
    (∀ S, S <:+ X₂ → S ≠ [] → S ≠ X₂ → matchTail kw (S ++ tail) = none) →
    matchTail kw tail = some amt →
    nameLoop kw acc (X₂ ++ tail) = some (acc ++ X₂, amt)
  | [], _, _, _, hne, _, _, _ => absurd rfl hne
  | c :: X₂', acc, tail, amt, _, hch, hfail, hsucc => by
    rw [List.cons_append]
    unfold nameLoop
    rw [if_pos (hch c (List.mem_cons_self c X₂'))]
    cases hX : X₂' with
    | nil =>
      subst hX
      rw [List.nil_append, hsucc]
    | cons d X₂'' =>
      rw [← hX]
      have hne' : X₂' ≠ [] := by rw [hX]; simp
      have hproper : X₂' ≠ c :: X₂' := fun hh => by
        have := congrArg List.length hh
        simp at this
      have hfail1 : matchTail kw (X₂' ++ tail) = none :=
        hfail X₂' (List.suffix_cons c X₂') hne' hproper
      rw [hfail1]
      have hrec := nameLoop_run kw X₂' (acc ++ [c]) tail amt hne'
        (fun x hx => hch x (List.mem_cons_of_mem c hx))
        (fun S hS hS1 _ => hfail S (hS.trans (List.suffix_cons c X₂')) hS1
          (fun hh => by
            have hlen := congrArg List.length hh
            have hle := List.IsSuffix.length_le hS
            simp at hlen
            omega))
        hsucc
      rw [hrec, List.append_assoc]
      rfl


theorem suffix_getLast? {S L : List Char} (h : S <:+ L) (hne : S ≠ []) :
    S.getLast? = L.getLast? := by
  obtain ⟨W, rfl⟩ := h
  rw [List.getLast?_append_of_ne_nil _ hne]

theorem not_space_of_digit {c : Char} (h : isDigitCh c = true) : isSpaceCh c = false := by
  cases hs : isSpaceCh c
  · rfl
  · exfalso
    simp only [isSpaceCh, Bool.or_eq_true, decide_eq_true_iff] at hs
    rcases hs with ⟨⟨⟨⟨hs | hs⟩ | hs⟩ | hs⟩ | hs⟩ | hs <;> subst hs <;> exact Bool.noConfusion h

theorem not_colon_of_digit {c : Char} (h : isDigitCh c = true) : c ≠ ':' := by
  rintro rfl
  exact Bool.noConfusion h

theorem nameCh_not_dollar {c : Char} (h : nameCh c = true) : c ≠ '$' := by
  rintro rfl
  exact Bool.noConfusion h

theorem nameCh_not_colon {c : Char} (h : nameCh c = true) : c ≠ ':' := by
  rintro rfl
  exact Bool.noConfusion h

/-- The whole name group, lazily matched: when the line is a well-formed
payment line, the captured name is exactly `X` and the amount exactly the
digit string. -/
theorem nameStart_full (kw : List Char) {X P U D T : List Char}
    (hkw : ∀ x ∈ kw, isSpaceCh x = false) (hkne : kw ≠ []) (hkwd : '$' ∉ kw)
    (hklen : kw.length = P.length)
    (hX2 : 2 ≤ X.length) (hXch : ∀ c ∈ X, nameCh c = true)
    (hXhead : ∀ c, X.head? = some c → isAlphaCh c = true)
    (hXlast : ∀ c, X.getLast? = some c → isSpaceCh c = false)
    (hP : P.map lowerChar = kw) (hU : U.map lowerChar = youLit)
    (hD : D ≠ []) (hDd : ∀ c ∈ D, isDigitCh c = true)
    (hT : T = [] ∨ ∃ F, T = '.' :: F ∧ ∀ c ∈ F, isDigitCh c = true) :
    nameStart kw (X ++ ' ' :: (P ++ ' ' :: (U ++ ' ' :: '$' :: (D ++ T))))
      = some (X, D ++ T) := by
  have hPns : ∀ c ∈ P, isSpaceCh c = false := map_lower_not_space hP hkw
  have hPne : P ≠ [] := by
    intro hh
    rw [hh] at hP
    exact hkne hP.symm
  have hPd : '$' ∉ P := map_lower_not_dollar hP hkwd
  cases X with
  | nil => simp at hX2
  | cons x0 X₂ =>
    have hx0 : isAlphaCh x0 = true := hXhead x0 rfl
    have hX₂ne : X₂ ≠ [] := by
      intro hh
      subst hh
      simp at hX2
    rw [List.cons_append]
    show (if isAlphaCh x0 = true then
        nameLoop kw [x0] (X₂ ++ ' ' :: (P ++ ' ' :: (U ++ ' ' :: '$' :: (D ++ T))))
      else none) = some (x0 :: X₂, D ++ T)
    rw [if_pos hx0]
    have hfail : ∀ S, S <:+ X₂ → S ≠ [] → S ≠ X₂ →
        matchTail kw (S ++ ' ' :: (P ++ ' ' :: (U ++ ' ' :: '$' :: (D ++ T)))) = none := by
      intro S hS hSne _
      cases hmt : matchTail kw (S ++ ' ' :: (P ++ ' ' :: (U ++ ' ' :: '$' :: (D ++ T)))) with
      | none => rfl
      | some amt =>
        exfalso
        have hSsub : ∀ c ∈ S, c ∈ x0 :: X₂ :=
          fun c hc => List.mem_cons_of_mem x0 (List.IsSuffix.subset hS hc)
        have hSd : '$' ∉ S := fun hm => nameCh_not_dollar (hXch '$' (hSsub '$' hm)) rfl
        obtain ⟨-, hSsp⟩ := matchTail_decomp hmt hSd hkwd hklen hPns hPne hPd hU
        obtain ⟨c, hc⟩ := Option.ne_none_iff_exists'.mp
          (fun hh => hSne (List.getLast?_eq_none_iff.mp hh))
        have hcS : c ∈ S := List.mem_of_getLast?_eq_some hc
        have hsp : isSpaceCh c = true := hSsp c hcS
        have hlast : (x0 :: X₂).getLast? = some c := by
          rw [← suffix_getLast? (List.IsSuffix.trans hS (List.suffix_cons x0 X₂)) hSne]
          exact hc
        rw [hXlast c hlast] at hsp
        exact Bool.noConfusion hsp
    have hsucc : matchTail kw (' ' :: (P ++ ' ' :: (U ++ ' ' :: '$' :: (D ++ T))))
        = some (D ++ T) := matchTail_full kw hP hkw hkne hU hD hDd hT
    have hrun := nameLoop_run kw X₂ [x0] (' ' :: (P ++ ' ' :: (U ++ ' ' :: '$' :: (D ++ T))))
      (D ++ T) hX₂ne (fun c hc => hXch c (List.mem_cons_of_mem x0 hc)) hfail hsucc
    rw [hrun]
    rfl

theorem searchPaid_full {X P U D T : List Char}
    (hX2 : 2 ≤ X.length) (hXch : ∀ c ∈ X, nameCh c = true)
    (hXhead : ∀ c, X.head? = some c → isAlphaCh c = true)
    (hXlast : ∀ c, X.getLast? = some c → isSpaceCh c = false)
    (hP : P.map lowerChar = paidLit) (hU : U.map lowerChar = youLit)
    (hD : D ≠ []) (hDd : ∀ c ∈ D, isDigitCh c = true)
    (hT : T = [] ∨ ∃ F, T = '.' :: F ∧ ∀ c ∈ F, isDigitCh c = true) :
    searchPaid (X ++ ' ' :: (P ++ ' ' :: (U ++ ' ' :: '$' :: (D ++ T))))
      = some (X, D ++ T) := by
  have hPlen : paidLit.length = P.length := by
    have h := congrArg List.length hP
    simp only [List.length_map] at h
    rw [h]
  have hns := nameStart_full paidLit (by decide) (by decide) (by decide) hPlen
    hX2 hXch hXhead hXlast hP hU hD hDd hT
  cases X with
  | nil => simp at hX2
  | cons x0 X₂ =>
    rw [List.cons_append]
    show (match nameStart paidLit
        (x0 :: (X₂ ++ ' ' :: (P ++ ' ' :: (U ++ ' ' :: '$' :: (D ++ T))))) with
      | some r => some r
      | none => searchPaid (X₂ ++ ' ' :: (P ++ ' ' :: (U ++ ' ' :: '$' :: (D ++ T)))))
      = some (x0 :: X₂, D ++ T)
    rw [← List.cons_append, hns]

theorem searchPaid_none_sent_line {V P U Y : List Char}
    (hVd : '$' ∉ V) (hP : P.map lowerChar = sentLit) (hU : U.map lowerChar = youLit)
    (hYd : '$' ∉ Y) :
    searchPaid (V ++ ' ' :: (P ++ ' ' :: (U ++ ' ' :: '$' :: Y))) = none := by
  have hPd : '$' ∉ P := map_lower_not_dollar hP (by decide)
  have hUd : '$' ∉ U := map_lower_not_dollar hU (by decide)
  have hPns : ∀ c ∈ P, isSpaceCh c = false := map_lower_not_space hP (by decide)
  have hPne : P ≠ [] := by
    intro hh
    rw [hh] at hP
    exact absurd hP.symm (by decide)
  have hPlen : P.length = 4 := by
    have h := congrArg List.length hP
    simpa using h
  have hUlen : U.length = 3 := by
    have h := congrArg List.length hU
    simpa using h
  have hklen : paidLit.length = P.length := by rw [hPlen]; rfl
  apply searchPaid_none_of
  intro S hS
  cases hmt : matchTail paidLit S with
  | none => rfl
  | some amt =>
    exfalso
    have hline : V ++ ' ' :: (P ++ ' ' :: (U ++ ' ' :: '$' :: Y))
        = (V ++ ' ' :: (P ++ ' ' :: (U ++ [' ']))) ++ '$' :: Y := by
      simp [List.append_assoc]
    rw [hline] at hS
    have hWd : '$' ∉ V ++ ' ' :: (P ++ ' ' :: (U ++ [' '])) := by
      intro hm
      simp only [List.mem_append, List.mem_cons, List.mem_singleton] at hm
      rcases hm with hm | hm | hm | hm | hm | hm
      · exact hVd hm
      · exact absurd hm (by decide)
      · exact hPd hm
      · exact absurd hm (by decide)
      · exact hUd hm
      · exact absurd hm (by decide)
    rcases suffix_append_cases hS with hSY | ⟨Z, hZ, rfl⟩
    · rcases List.suffix_cons_iff.mp hSY with rfl | hSY'
      · have hnone : matchTail paidLit ('$' :: Y) = none := rfl
        rw [hnone] at hmt
        exact Option.noConfusion hmt
      · obtain ⟨sp1, P', sp2, U', sp3, rest, hs, -⟩ := matchTail_shape hmt
        have hdS : '$' ∈ S := by
          rw [hs]
          refine List.mem_append_right _ (List.mem_append_right _ (List.mem_append_right _
            (List.mem_append_right _ (List.mem_append_right _ (List.mem_cons_self _ _)))))
        exact hYd (List.IsSuffix.subset hSY' hdS)
    · have hZd : '$' ∉ Z := fun hm => hWd (List.IsSuffix.subset hZ hm)
      have hlen := matchTail_min_length hmt hZd (by decide)
      rcases suffix_append_cases hZ with hZt | ⟨V', hV', rfl⟩
      · have hle := List.IsSuffix.length_le hZt
        have hlen10 : (' ' :: (P ++ ' ' :: (U ++ [' ']))).length = 10 := by
          simp [hPlen, hUlen]
        have hZeq : Z = ' ' :: (P ++ ' ' :: (U ++ [' '])) :=
          List.IsSuffix.eq_of_length hZt (by
            rw [hlen10]
            rw [hlen10] at hle
            have : paidLit.length = 4 := rfl
            omega)
        subst hZeq
        have harg : (' ' :: (P ++ ' ' :: (U ++ [' ']))) ++ '$' :: Y
            = ([] : List Char) ++ ' ' :: (P ++ ' ' :: (U ++ ' ' :: '$' :: Y)) := by
          simp [List.append_assoc]
        rw [harg] at hmt
        obtain ⟨hPkw, -⟩ := matchTail_decomp hmt (by simp) (by decide) hklen hPns hPne hPd hU
        exact absurd (hP.symm.trans hPkw) (by decide)
      · have harg : (V' ++ (' ' :: (P ++ ' ' :: (U ++ [' '])))) ++ '$' :: Y
            = V' ++ ' ' :: (P ++ ' ' :: (U ++ ' ' :: '$' :: Y)) := by
          simp [List.append_assoc]
        rw [harg] at hmt
        have hV'd : '$' ∉ V' := fun hm => hVd (List.IsSuffix.subset hV' hm)
        obtain ⟨hPkw, -⟩ := matchTail_decomp hmt hV'd (by decide) hklen hPns hPne hPd hU
        exact absurd (hP.symm.trans hPkw) (by decide)

theorem not_colon_of_map_lower {P kw : List Char} (hP : P.map lowerChar = kw)
    (hkw : ':' ∉ kw) : ':' ∉ P := by
  intro h
  apply hkw
  have hm : lowerChar ':' ∈ kw := by
    rw [← hP]
    exact List.mem_map_of_mem lowerChar h
  exact hm

theorem expectCI_bofa_none {s : List Char} (h : ':' ∉ s) : expectCI bofaLit s = none := by
  cases he : expectCI bofaLit s with
  | none => rfl
  | some r =>
    exfalso
    obtain ⟨pre, rfl, hpre⟩ := expectCI_some he
    have hm : ':' ∈ pre.map lowerChar := by
      rw [hpre]
      decide
    obtain ⟨c, hc, hcl⟩ := List.mem_map.mp hm
    rw [eq_colon_of_lowerChar hcl] at hc
    exact h (List.mem_append_left _ hc)

theorem sentAt_full_noPre {X P U D T : List Char}
    (hX2 : 2 ≤ X.length) (hXch : ∀ c ∈ X, nameCh c = true)
    (hXhead : ∀ c, X.head? = some c → isAlphaCh c = true)
    (hXlast : ∀ c, X.getLast? = some c → isSpaceCh c = false)
    (hP : P.map lowerChar = sentLit) (hU : U.map lowerChar = youLit)
    (hD : D ≠ []) (hDd : ∀ c ∈ D, isDigitCh c = true)
    (hT : T = [] ∨ ∃ F, T = '.' :: F ∧ ∀ c ∈ F, isDigitCh c = true) :
    sentAt (X ++ ' ' :: (P ++ ' ' :: (U ++ ' ' :: '$' :: (D ++ T))))
      = some (X, D ++ T) := by
  have hPlen : sentLit.length = P.length := by
    have h := congrArg List.length hP
    simp only [List.length_map] at h
    rw [h]
  have hnc : ':' ∉ X ++ ' ' :: (P ++ ' ' :: (U ++ ' ' :: '$' :: (D ++ T))) := by
    intro hm
    simp only [List.mem_append, List.mem_cons] at hm
    rcases hm with hm | hm | hm | hm | hm | hm | hm
    · exact nameCh_not_colon (hXch ':' hm) rfl
    · exact absurd hm (by decide)
    · exact not_colon_of_map_lower hP (by decide) hm
    · exact absurd hm (by decide)
    · exact not_colon_of_map_lower hU (by decide) hm
    · exact absurd hm (by decide)
    · rcases hm with hm | hm | hm
      · exact absurd hm (by decide)
      · exact not_colon_of_digit (hDd ':' hm) rfl
      · rcases hT with rfl | ⟨F, rfl, hF⟩
        · exact absurd hm (List.not_mem_nil ':')
        · rcases List.mem_cons.mp hm with hm | hm
          · exact absurd hm (by decide)
          · exact not_colon_of_digit (hF ':' hm) rfl
  have hns := nameStart_full sentLit (by decide) (by decide) (by decide) hPlen
    hX2 hXch hXhead hXlast hP hU hD hDd hT
  unfold sentAt
  rw [expectCI_bofa_none hnc]
  exact hns

theorem sentAt_full_pre {B X P U D T : List Char}
    (hB : B.map lowerChar = bofaLit)
    (hX2 : 2 ≤ X.length) (hXch : ∀ c ∈ X, nameCh c = true)
    (hXhead : ∀ c, X.head? = some c → isAlphaCh c = true)
    (hXlast : ∀ c, X.getLast? = some c → isSpaceCh c = false)
    (hP : P.map lowerChar = sentLit) (hU : U.map lowerChar = youLit)
    (hD : D ≠ []) (hDd : ∀ c ∈ D, isDigitCh c = true)
    (hT : T = [] ∨ ∃ F, T = '.' :: F ∧ ∀ c ∈ F, isDigitCh c = true) :
    sentAt (B ++ ' ' :: (X ++ ' ' :: (P ++ ' ' :: (U ++ ' ' :: '$' :: (D ++ T)))))
      = some (X, D ++ T) := by
  have hPlen : sentLit.length = P.length := by
    have h := congrArg List.length hP
    simp only [List.length_map] at h
    rw [h]
  have hXhead' : ∀ c, (X ++ ' ' :: (P ++ ' ' :: (U ++ ' ' :: '$' :: (D ++ T)))).head?
      = some c → isSpaceCh c = false := by
    cases X with
    | nil => simp at hX2
    | cons x0 X₂ =>
      intro c hc
      have hcp : x0 = c := by simpa using hc
      rw [← hcp]
      exact not_space_of_alpha (hXhead x0 rfl)
  have h1 : expectCI bofaLit (B ++ ' ' :: (X ++ ' ' :: (P ++ ' ' :: (U ++ ' ' :: '$' :: (D ++ T)))))
      = some (' ' :: (X ++ ' ' :: (P ++ ' ' :: (U ++ ' ' :: '$' :: (D ++ T))))) := by
    rw [← hB]
    exact expectCI_append B _
  have h2 : takeSpaces1 (' ' :: (X ++ ' ' :: (P ++ ' ' :: (U ++ ' ' :: '$' :: (D ++ T)))))
      = some (X ++ ' ' :: (P ++ ' ' :: (U ++ ' ' :: '$' :: (D ++ T)))) :=
    takeSpaces1_space_append hXhead'
  have h3 := nameStart_full sentLit (by decide) (by decide) (by decide) hPlen
    hX2 hXch hXhead hXlast hP hU hD hDd hT
  simp only [sentAt, h1, h2, h3]

theorem searchSent_cons_some {c : Char} {rest : List Char} {r : List Char × List Char}
    (h : sentAt (c :: rest) = some r) : searchSent (c :: rest) = some r := by
  show (match sentAt (c :: rest) with
    | some r => some r
    | none => searchSent rest) = some r
  rw [h]

theorem ledgerAdd_lookup (k : List Char) (a : ℚ) :
    ∀ led : List (List Char × ℚ),
      (ledgerAdd led k a).lookup k = some ((led.lookup k).getD 0 + a)
  | [] => by simp [ledgerAdd]
  | e :: t => by
    by_cases h : e.1 = k
    · have hl : ((e :: t).lookup k).isSome = true := by
        rw [← h]
        cases e with
        | mk k1 v1 => simp [List.lookup_cons]
      unfold ledgerAdd
      rw [if_pos hl]
      cases e with
      | mk k1 v1 =>
        obtain rfl : k1 = k := h
        simp [List.lookup_cons]
    · have hke : (k == e.1) = false := beq_eq_false_iff_ne.mpr (fun hh => h hh.symm)
      have hlc : (e :: t).lookup k = t.lookup k := by
        cases e with
        | mk k1 v1 => simp [List.lookup_cons, hke]
      by_cases ht : (t.lookup k).isSome = true
      · have hl : ((e :: t).lookup k).isSome = true := by rw [hlc]; exact ht
        unfold ledgerAdd
        rw [if_pos hl]
        have hmap : (e :: t).map (fun x => if x.1 = k then (x.1, x.2 + a) else x)
            = (if e.1 = k then (e.1, e.2 + a) else e)
              :: t.map (fun x => if x.1 = k then (x.1, x.2 + a) else x) := rfl
        rw [hmap, if_neg h]
        have hprev := ledgerAdd_lookup k a t
        unfold ledgerAdd at hprev
        rw [if_pos ht] at hprev
        cases e with
        | mk k1 v1 =>
          rw [List.lookup_cons]
          simp only at hke
          rw [hke]
          rw [hprev, hlc]
      · unfold ledgerAdd
        rw [if_neg (by rw [hlc]; exact ht)]
        have hprev := ledgerAdd_lookup k a t
        unfold ledgerAdd at hprev
        rw [if_neg ht] at hprev
        rw [List.cons_append]
        cases e with
        | mk k1 v1 =>
          rw [List.lookup_cons]
          simp only at hke
          rw [hke, hprev, hlc]

theorem not_dollar_of_digit {c : Char} (h : isDigitCh c = true) : c ≠ '$' := by
  rintro rfl
  exact Bool.noConfusion h

theorem pyStrip_eq_self {s : List Char}
    (h1 : ∀ c, s.head? = some c → isSpaceCh c = false)
    (h2 : ∀ c, s.getLast? = some c → isSpaceCh c = false) : pyStrip s = s := by
  unfold pyStrip
  rw [dropWhile_of_head_false h1]
  rw [dropWhile_of_head_false (fun c hc => h2 c (by rwa [List.head?_reverse] at hc))]
  rw [List.reverse_reverse]

theorem amount_last_ok {D T : List Char} (hD : D ≠ []) (hDd : ∀ c ∈ D, isDigitCh c = true)
    (hT : T = [] ∨ ∃ F, T = '.' :: F ∧ ∀ c ∈ F, isDigitCh c = true) :
    ∃ c, (D ++ T).getLast? = some c ∧ isSpaceCh c = false ∧ c ≠ ':' := by
  rcases hT with rfl | ⟨F, rfl, hF⟩
  · rcases List.eq_nil_or_concat D with rfl | ⟨D₀, d, rfl⟩
    · exact absurd rfl hD
    · have hd : isDigitCh d = true := hDd d (by simp [List.concat_eq_append])
      refine ⟨d, ?_, not_space_of_digit hd, not_colon_of_digit hd⟩
      rw [List.concat_eq_append, List.append_nil]
      exact List.getLast?_concat _
  · rcases List.eq_nil_or_concat F with rfl | ⟨F₀, f, rfl⟩
    · refine ⟨'.', ?_, by decide, by decide⟩
      have hsh : D ++ ('.' :: ([] : List Char)) = D ++ ['.'] := rfl
      rw [hsh]
      exact List.getLast?_concat _
    · have hf : isDigitCh f = true := hF f (by simp [List.concat_eq_append])
      refine ⟨f, ?_, not_space_of_digit hf, not_colon_of_digit hf⟩
      rw [List.concat_eq_append,
        show D ++ '.' :: (F₀ ++ [f]) = (D ++ '.' :: F₀) ++ [f] from by simp]
      exact List.getLast?_concat _

theorem processLine_of_search {led : List (List Char × ℚ)} {line n a : List Char}
    (hstrip : pyStrip line = line)
    (hne : line.isEmpty = false)
    (hec : endsColon line = false)
    (hsearch : searchPaid line = some (n, a)
      ∨ (searchPaid line = none ∧ searchSent line = some (n, a))) :
    processLine led line = ledgerAdd led (normalize_name n) (parseAmount a) := by
  have h2 : (endsColon line && !containsCI paidLit line && !containsCI sentLit line)
      = false := by
    rw [hec]
    rfl
  rcases hsearch with hp | ⟨hp, hs⟩
  · simp [processLine, hstrip, hne, h2, hp]
  · simp [processLine, hstrip, hne, h2, hp, hs]

/-- C5 (amended): a line of the exact form `X paid you $Y` or
`[BofA:] X sent you $Y` (keywords case-insensitive) whose payer name `X` has
at least two characters adds the parsed amount to the ledger entry of
`normalize_name X`, created at zero when absent. -/
theorem payment_line_extracted (led : List (List Char × ℚ)) (X P U B D T line : List Char)
    (hX2 : 2 ≤ X.length) (hXch : ∀ c ∈ X, nameCh c = true)
    (hXhead : ∀ c, X.head? = some c → isAlphaCh c = true)
    (hXlast : ∀ c, X.getLast? = some c → isSpaceCh c = false)
    (hU : U.map lowerChar = youLit)
    (hD : D ≠ []) (hDd : ∀ c ∈ D, isDigitCh c = true)
    (hT : T = [] ∨ ∃ F, T = '.' :: F ∧ ∀ c ∈ F, isDigitCh c = true)
    (hline : (P.map lowerChar = paidLit
        ∧ line = X ++ ' ' :: (P ++ ' ' :: (U ++ ' ' :: '$' :: (D ++ T))))
      ∨ (P.map lowerChar = sentLit
        ∧ (line = X ++ ' ' :: (P ++ ' ' :: (U ++ ' ' :: '$' :: (D ++ T)))
          ∨ (B.map lowerChar = bofaLit
            ∧ line = B ++ ' ' :: (X ++ ' ' :: (P ++ ' ' :: (U ++ ' ' :: '$' :: (D ++ T)))))))) :
    processLine led line = ledgerAdd led (normalize_name X) (parseAmount (D ++ T))
    ∧ (processLine led line).lookup (normalize_name X)
      = some ((led.lookup (normalize_name X)).getD 0 + parseAmount (D ++ T)) := by
  obtain ⟨cl, hcl, hcls, hclc⟩ := amount_last_ok hD hDd hT
  have hDT : D ++ T ≠ [] := fun hh => hD (List.append_eq_nil.mp hh).1
  have hlast1 : ∀ V0 : List Char,
      (V0 ++ ' ' :: (P ++ ' ' :: (U ++ ' ' :: '$' :: (D ++ T)))).getLast? = some cl := by
    intro V0
    have hsh : V0 ++ ' ' :: (P ++ ' ' :: (U ++ ' ' :: '$' :: (D ++ T)))
        = (V0 ++ ' ' :: (P ++ ' ' :: (U ++ [' ', '$']))) ++ (D ++ T) := by
      simp [List.append_assoc]
    rw [hsh, List.getLast?_append_of_ne_nil _ hDT]
    exact hcl
  have hXdollar : '$' ∉ X := fun hm => nameCh_not_dollar (hXch '$' hm) rfl
  have hYdollar : '$' ∉ D ++ T := by
    intro hm
    rcases List.mem_append.mp hm with hm | hm
    · exact not_dollar_of_digit (hDd '$' hm) rfl
    · rcases hT with rfl | ⟨F, rfl, hF⟩
      · exact absurd hm (List.not_mem_nil _)
      · rcases List.mem_cons.mp hm with hm | hm
        · exact absurd hm (by decide)
        · exact not_dollar_of_digit (hF '$' hm) rfl
  have hXheadns : ∀ c, (X ++ ' ' :: (P ++ ' ' :: (U ++ ' ' :: '$' :: (D ++ T)))).head?
      = some c → isSpaceCh c = false := by
    cases X with
    | nil => simp at hX2
    | cons x0 X₂ =>
      intro c hc
      have hcp : x0 = c := by simpa using hc
      rw [← hcp]
      exact not_space_of_alpha (hXhead x0 rfl)
  have hXne : X ++ ' ' :: (P ++ ' ' :: (U ++ ' ' :: '$' :: (D ++ T))) ≠ [] := by
    cases X with
    | nil => simp at hX2
    | cons x0 X₂ => simp
  have hmain : processLine led line
      = ledgerAdd led (normalize_name X) (parseAmount (D ++ T)) := by
    rcases hline with ⟨hP, rfl⟩ | ⟨hP, rfl | ⟨hB, rfl⟩⟩
    · have hstrip := pyStrip_eq_self hXheadns
        (fun c hc => by
          rw [hlast1 X] at hc
          obtain rfl := Option.some.inj hc
          exact hcls)
      have hne : (X ++ ' ' :: (P ++ ' ' :: (U ++ ' ' :: '$' :: (D ++ T)))).isEmpty
          = false := by
        cases X with
        | nil => simp at hX2
        | cons x0 X₂ => rfl
      have hec : endsColon (X ++ ' ' :: (P ++ ' ' :: (U ++ ' ' :: '$' :: (D ++ T))))
          = false := by
        unfold endsColon
        rw [hlast1 X]
        exact beq_eq_false_iff_ne.mpr (fun hh => hclc (Option.some.inj hh))
      exact processLine_of_search hstrip hne hec
        (Or.inl (searchPaid_full hX2 hXch hXhead hXlast hP hU hD hDd hT))
    · have hstrip := pyStrip_eq_self hXheadns
        (fun c hc => by
          rw [hlast1 X] at hc
          obtain rfl := Option.some.inj hc
          exact hcls)
      have hne : (X ++ ' ' :: (P ++ ' ' :: (U ++ ' ' :: '$' :: (D ++ T)))).isEmpty
          = false := by
        cases X with
        | nil => simp at hX2
        | cons x0 X₂ => rfl
      have hec : endsColon (X ++ ' ' :: (P ++ ' ' :: (U ++ ' ' :: '$' :: (D ++ T))))
          = false := by
        unfold endsColon
        rw [hlast1 X]
        exact beq_eq_false_iff_ne.mpr (fun hh => hclc (Option.some.inj hh))
      have hnone := searchPaid_none_sent_line hXdollar hP hU hYdollar
      have hsent : searchSent (X ++ ' ' :: (P ++ ' ' :: (U ++ ' ' :: '$' :: (D ++ T))))
          = some (X, D ++ T) := by
        cases X with
        | nil => simp at hX2
        | cons x0 X₂ =>
          rw [List.cons_append]
          apply searchSent_cons_some
          rw [← List.cons_append]
          exact sentAt_full_noPre hX2 hXch hXhead hXlast hP hU hD hDd hT
      exact processLine_of_search hstrip hne hec (Or.inr ⟨hnone, hsent⟩)
    · have hBne : B ≠ [] := by
        intro hh
        rw [hh] at hB
        exact absurd hB.symm (by decide)
      have hBd : '$' ∉ B := map_lower_not_dollar hB (by decide)
      have hBheadns : ∀ c, (B ++ ' ' :: (X ++ ' ' :: (P ++ ' ' :: (U ++ ' ' :: '$'
          :: (D ++ T))))).head? = some c → isSpaceCh c = false := by
        cases B with
        | nil => exact absurd rfl hBne
        | cons b0 B' =>
          intro c hc
          have hcp : b0 = c := by simpa using hc
          rw [← hcp]
          exact map_lower_not_space hB (by decide) b0 (List.mem_cons_self b0 B')
      have hlast2 : (B ++ ' ' :: (X ++ ' ' :: (P ++ ' ' :: (U ++ ' ' :: '$'
          :: (D ++ T))))).getLast? = some cl := by
        rw [show B ++ ' ' :: (X ++ ' ' :: (P ++ ' ' :: (U ++ ' ' :: '$' :: (D ++ T))))
          = (B ++ [' ']) ++ (X ++ ' ' :: (P ++ ' ' :: (U ++ ' ' :: '$' :: (D ++ T))))
          from by simp]
        rw [List.getLast?_append_of_ne_nil _ hXne]
        exact hlast1 X
      have hstrip := pyStrip_eq_self hBheadns
        (fun c hc => by
          rw [hlast2] at hc
          obtain rfl := Option.some.inj hc
          exact hcls)
      have hne : (B ++ ' ' :: (X ++ ' ' :: (P ++ ' ' :: (U ++ ' ' :: '$'
          :: (D ++ T))))).isEmpty = false := by
        cases B with
        | nil => exact absurd rfl hBne
        | cons b0 B' => rfl
      have hec : endsColon (B ++ ' ' :: (X ++ ' ' :: (P ++ ' ' :: (U ++ ' ' :: '$'
          :: (D ++ T))))) = false := by
        unfold endsColon
        rw [hlast2]
        exact beq_eq_false_iff_ne.mpr (fun hh => hclc (Option.some.inj hh))
      have hnone : searchPaid (B ++ ' ' :: (X ++ ' ' :: (P ++ ' ' :: (U ++ ' ' :: '$'
          :: (D ++ T))))) = none := by
        rw [show B ++ ' ' :: (X ++ ' ' :: (P ++ ' ' :: (U ++ ' ' :: '$' :: (D ++ T))))
          = (B ++ ' ' :: X) ++ ' ' :: (P ++ ' ' :: (U ++ ' ' :: '$' :: (D ++ T)))
          from by simp]
        refine searchPaid_none_sent_line ?_ hP hU hYdollar
        intro hm
        rcases List.mem_append.mp hm with hm | hm
        · exact hBd hm
        · rcases List.mem_cons.mp hm with hm | hm
          · exact absurd hm (by decide)
          · exact hXdollar hm
      have hsent : searchSent (B ++ ' ' :: (X ++ ' ' :: (P ++ ' ' :: (U ++ ' ' :: '$'
          :: (D ++ T))))) = some (X, D ++ T) := by
        cases B with
        | nil => exact absurd rfl hBne
        | cons b0 B' =>
          rw [List.cons_append]
          apply searchSent_cons_some
          rw [← List.cons_append]
          exact sentAt_full_pre hB hX2 hXch hXhead hXlast hP hU hD hDd hT
      exact processLine_of_search hstrip hne hec (Or.inr ⟨hnone, hsent⟩)
  refine ⟨hmain, ?_⟩
  rw [hmain]
  exact ledgerAdd_lookup _ _ led

theorem payment_line_extracted_witness :
    processLine [] ("Bob paid you $10.00".data)
      = ledgerAdd [] (normalize_name ("Bob".data)) (parseAmount ("10.00".data))
    ∧ (processLine [] ("Bob paid you $10.00".data)).lookup (normalize_name ("Bob".data))
      = some ((List.lookup (normalize_name ("Bob".data))
          ([] : List (List Char × ℚ))).getD 0 + parseAmount ("10.00".data)) :=
  payment_line_extracted [] ("Bob".data) ("paid".data) ("you".data) [] ("10".data)
    (".00".data) ("Bob paid you $10.00".data) (by decide) (by decide) (by decide)
    (by decide) (by decide) (by decide) (by decide)
    (Or.inr ⟨("00".data), by decide, by decide⟩)
    (Or.inl ⟨by decide, by decide⟩)

/-- C5 counterexample: the name group of the regex needs at least two
characters, so the line "A paid you $5" — whose payer "A" is one alphabetic
word — contributes nothing to the ledger. -/
theorem single_letter_payer_counterexample :
    parse_payments [("A paid you $5".data)] = []
    ∧ (parse_payments [("A paid you $5".data)]).lookup (normalize_name ("A".data))
      = none := by
  exact ⟨by with_unfolding_all rfl, by with_unfolding_all rfl⟩

theorem resolvePayment_spec_witness :
    resolvePayment [("ann".data, (3:ℚ))] ("ann".data) = 3
    ∧ resolvePayment [("xx".data, (2:ℚ)), ("bob".data, 7)] ("bob ann".data) = 7
    ∧ resolvePayment [("xx".data, (2:ℚ))] ("bob".data) = 0 :=
  ⟨resolvePayment_spec.1 _ _ (by with_unfolding_all decide),
   resolvePayment_spec.2.1 [("xx".data, 2)] [] ("bob".data) ("bob ann".data) 7
     (by with_unfolding_all decide) (by with_unfolding_all decide) (by decide),
   resolvePayment_spec.2.2 _ _ (by with_unfolding_all decide) (by with_unfolding_all decide)⟩

end Authenticate
